import Mathlib

/-!
Verification development for a Rust chess engine (bitboard representation,
move generation, FEN codec, static evaluation and negamax search).

The Rust code is shallowly embedded: `u64` bitboards become `Nat` values kept
below `2 ^ 64` (wrapping is made explicit where the source relies on it),
squares are their `u8` indices (`index = file * 8 + rank`, file-major),
`i16` scores become `Int`, and fallible parsing returns `Option`.
-/

namespace Chess

/-- All 64 bits set: the value of `0xffffffffffffffff : u64`. -/
def U64MASK : Nat := 0xffffffffffffffff

/-! ### Squares (src/state.rs)

A square is its index `file << 3 | rank`, a `Nat` below 64. -/

/-- `Square::at(file, rank)`: `file << 3 | rank`. -/
def square_at (file rank : Nat) : Nat := file <<< 3 ||| rank

/-- `Square::file`: `idx >> 3`. -/
def sq_file (squ : Nat) : Nat := squ >>> 3

/-- `Square::rank`: `idx & 7`. -/
def sq_rank (squ : Nat) : Nat := squ &&& 7

/-- `Square::shift(dfile, drank)` (in-range arithmetic of the source;
the source debug-asserts the results are in range). -/
def sq_shift (squ : Nat) (dfile drank : Int) : Nat :=
  square_at ((sq_file squ : Int) + dfile).toNat ((sq_rank squ : Int) + drank).toNat

/-! ### Bitboards (src/bitboard.rs) -/

/-- `rank_pattern(ranks)`: `0x0101010101010101 * ranks` (with `ranks : u8`). -/
def rank_pattern (ranks : Nat) : Nat := 0x0101010101010101 * ranks

/-- Bitwise complement on `u64`: `!x`. -/
def bb_not (x : Nat) : Nat := x ^^^ U64MASK

/-- `Bb::one(squ)`: `1 << squ.idx`. -/
def bb_one (squ : Nat) : Nat := 1 <<< squ

/-- `Bb::at(squ)`: `(self.0 >> squ.idx) & 1 == 1`, i.e. `testBit`. -/
def bb_at (x squ : Nat) : Bool := x.testBit squ

/-- `Bb::rank(rank)`: `rank_pattern(1u8 << rank)`. -/
def bb_rank (rank : Nat) : Nat := rank_pattern (1 <<< rank)

/-- `Bb::none()`: emptiness test. -/
def bb_none (x : Nat) : Bool := x == 0

/-- The members of a bitboard, in increasing index order (`BbIter`). -/
def bb_squares (x : Nat) : List Nat := (List.range 64).filter (fun i => x.testBit i)

/-- `Bb::count()`: population count. -/
def bb_count (x : Nat) : Nat := (bb_squares x).length

/-- `Bb::shift_up(ranks)`: `(x << ranks) & rank_pattern(0xffu8 << ranks)`
(the inner shift truncates to `u8`). -/
def shift_up (x ranks : Nat) : Nat := (x <<< ranks) &&& rank_pattern ((0xff <<< ranks) % 256)

/-- `Bb::shift_down(ranks)`: `(x >> ranks) & rank_pattern(0xffu8 >> ranks)`. -/
def shift_down (x ranks : Nat) : Nat := (x >>> ranks) &&& rank_pattern (0xff >>> ranks)

/-- `Bb::shift_ver(ranks)`. -/
def shift_ver (x : Nat) (ranks : Int) : Nat :=
  if 0 ≤ ranks then shift_up x ranks.toNat else shift_down x (-ranks).toNat

/-- `Bb::shift_left(files)`: `x >> (files * 8)`. -/
def shift_left (x files : Nat) : Nat := x >>> (files * 8)

/-- `Bb::shift_right(files)`: `x << (files * 8)` on `u64` (truncating). -/
def shift_right (x files : Nat) : Nat := (x <<< (files * 8)) &&& U64MASK

/-- `Bb::shift_hor(files)`. -/
def shift_hor (x : Nat) (files : Int) : Nat :=
  if 0 ≤ files then shift_right x files.toNat else shift_left x (-files).toNat

/-- `Bb::file(file)`: `Bb(0xff).shift_right(file)`. -/
def bb_file (file : Nat) : Nat := shift_right 0xff file

/-- `KNIGHT_PATTERNS[idx]`: the c3 knight mask shifted to the origin square. -/
def knight_pattern (squ : Nat) : Nat :=
  shift_ver (shift_hor 0x0a1100110a ((sq_file squ : Int) - 2)) ((sq_rank squ : Int) - 2)

/-- `KING_PATTERNS[idx]`: the b2 king mask shifted to the origin square. -/
def king_pattern (squ : Nat) : Nat :=
  shift_ver (shift_hor 0x070507 ((sq_file squ : Int) - 1)) ((sq_rank squ : Int) - 1)

/-- `DIAGONALS[idx]`: the main diagonal shifted horizontally. -/
def diagonal (idx : Nat) : Nat := shift_hor 0x8040201008040201 ((idx : Int) - 7)

/-- `ANTIDIAGONALS[idx]`: the main antidiagonal shifted horizontally. -/
def antidiagonal (idx : Nat) : Nat := shift_hor 0x0102040810204080 ((idx : Int) - 7)

/-- Upward scan helper for `first_bit`: least set bit at index `i` or above,
within `fuel` steps. -/
def first_bit_from (x : Nat) : Nat → Nat → Option Nat
  | 0, _ => Option.none
  | fuel + 1, i => if x.testBit i then some i else first_bit_from x fuel (i + 1)

/-- `first_bit`: index of the least set bit among bits `0..63`
(`trailing_zeros`, `None` when the `u64` is zero). -/
def first_bit (x : Nat) : Option Nat := first_bit_from x 64 0

/-- Downward scan helper for `last_bit`: greatest set bit strictly below `i`. -/
def last_bit_below (x : Nat) : Nat → Option Nat
  | 0 => none
  | i + 1 => if x.testBit i then some i else last_bit_below x i

/-- `last_bit`: index of the greatest set bit among bits `0..63`
(`63 - leading_zeros`, `None` when the `u64` is zero). -/
def last_bit (x : Nat) : Option Nat := last_bit_below x 64

/-- `cast_ray(from, pattern, pieces)` from src/bitboard.rs. -/
def cast_ray (from_squ pattern pieces : Nat) : Nat :=
  let obstacles := pattern &&& pieces &&& bb_not (bb_one from_squ)
  let before := U64MASK >>> (63 - from_squ)
  let after := (U64MASK <<< from_squ) &&& U64MASK
  let obstacle1 := (last_bit (obstacles &&& before)).getD 0
  let obstacle2 := (first_bit (obstacles &&& after)).getD 63
  let ones := 1 + obstacle2 - obstacle1
  let mask := (U64MASK >>> (64 - ones)) <<< obstacle1
  pattern &&& mask

/-- `cast_diagonals(from, pieces)`. -/
def cast_diagonals (from_squ pieces : Nat) : Nat :=
  cast_ray from_squ (diagonal (7 + sq_file from_squ - sq_rank from_squ)) pieces |||
  cast_ray from_squ (antidiagonal (sq_file from_squ + sq_rank from_squ)) pieces

/-- `cast_cardinals(from, pieces)`. -/
def cast_cardinals (from_squ pieces : Nat) : Nat :=
  cast_ray from_squ (bb_rank (sq_rank from_squ)) pieces |||
  cast_ray from_squ (bb_file (sq_file from_squ)) pieces

/-! ### Pieces, colors, moves, boards (src/state.rs) -/

inductive PieceType
  | pawn | knight | bishop | rook | queen | king
deriving DecidableEq, Repr

/-- Ordinal of a piece type (`PieceType as usize`). -/
def PieceType.ordinal : PieceType → Nat
  | .pawn => 0 | .knight => 1 | .bishop => 2 | .rook => 3 | .queen => 4 | .king => 5

/-- `PieceType::all()`, in ordinal order. -/
def PieceType.all : List PieceType := [.pawn, .knight, .bishop, .rook, .queen, .king]

inductive Color
  | white | black
deriving DecidableEq, Repr

def Color.ordinal : Color → Nat
  | .white => 0 | .black => 1

def Color.from_ordinal (n : Nat) : Color := if n = 0 then .white else .black

def Color.opponent : Color → Color
  | .white => .black | .black => .white

/-- `Color::rel_rank`. -/
def Color.rel_rank (c : Color) (rank : Nat) : Nat :=
  match c with | .white => rank | .black => 7 - rank

/-- `Color::up`. -/
def Color.up : Color → Int
  | .white => 1 | .black => -1

/-- `Color::down`. -/
def Color.down (c : Color) : Int := -c.up

structure Piece where
  color : Color
  ptype : PieceType
deriving DecidableEq, Repr

def Piece.ordinal (p : Piece) : Nat := p.color.ordinal * 6 + p.ptype.ordinal

inductive SpecialMove
  | none | en_passant | promote_n | promote_b | promote_r | promote_q | castle_q | castle_k
deriving DecidableEq, Repr

/-- `SpecialMove::get_promotion`. -/
def SpecialMove.get_promotion : SpecialMove → Option PieceType
  | .promote_n => some .knight
  | .promote_b => some .bishop
  | .promote_r => some .rook
  | .promote_q => some .queen
  | _ => Option.none

structure Move where
  ptype : PieceType
  from_squ : Nat
  to_squ : Nat
  special : SpecialMove
deriving DecidableEq, Repr

/-- `Board`: twelve bitboards indexed by `Piece::ordinal`. -/
structure Board where
  bbs : List Nat
deriving DecidableEq, Repr

def Board.empty : Board := ⟨List.replicate 12 0⟩

/-- `Board::find_piece`. -/
def find_piece (b : Board) (p : Piece) : Nat := b.bbs.getD p.ordinal 0

/-- `Board::find_color`: union over the six piece types. -/
def find_color (b : Board) (c : Color) : Nat :=
  PieceType.all.foldl (fun sum pt => sum ||| find_piece b ⟨c, pt⟩) 0

/-- `Board::count_pieces`. -/
def count_pieces (b : Board) (c : Color) (pt : PieceType) : Nat :=
  bb_count (find_piece b ⟨c, pt⟩)

/-- `Board::all_pieces`. -/
def all_pieces (b : Board) : Nat := find_color b .white ||| find_color b .black

/-- `Board::add`. -/
def Board.add (b : Board) (squ : Nat) (p : Piece) : Board :=
  ⟨b.bbs.set p.ordinal (find_piece b p ||| bb_one squ)⟩

/-- `Board::remove`. -/
def Board.remove (b : Board) (squ : Nat) (p : Piece) : Board :=
  ⟨b.bbs.set p.ordinal (find_piece b p &&& bb_not (bb_one squ))⟩

/-- The twelve pieces in `Board::get_pieces` iteration order (white then black,
piece types in ordinal order). -/
def piece_list : List Piece :=
  [⟨.white, .pawn⟩, ⟨.white, .knight⟩, ⟨.white, .bishop⟩, ⟨.white, .rook⟩,
   ⟨.white, .queen⟩, ⟨.white, .king⟩,
   ⟨.black, .pawn⟩, ⟨.black, .knight⟩, ⟨.black, .bishop⟩, ⟨.black, .rook⟩,
   ⟨.black, .queen⟩, ⟨.black, .king⟩]

/-- The dense placement snapshot `Board::get_pieces` at one square: the last
piece (in iteration order) whose bitboard holds the square wins, matching the
array overwrite in the source. -/
def piece_at (b : Board) (squ : Nat) : Option Piece :=
  (piece_list.filter (fun p => bb_at (find_piece b p) squ)).getLast?

/-! ### Position and move generation (src/game.rs) -/

structure Position where
  board : Board
  unmoved : Nat
  en_passant_target : Option Nat
  ply_number : Nat
  half_move_clock : Nat
deriving DecidableEq, Repr

/-- `Position::side_to_move`: `Color::from_ordinal((ply_number - 1) % 2)`.
The `u16` subtraction wraps at `ply_number = 0`; mod 2 this equals
`(ply_number + 1) % 2`. -/
def side_to_move (pos : Position) : Color :=
  Color.from_ordinal ((pos.ply_number + 1) % 2)

/-- `Position::find_king`: first set bit of the king bitboard (the source
asserts at most one king of the color -- at most one bit -- is present). -/
def find_king (pos : Position) (color : Color) : Option Nat :=
  (bb_squares (find_piece pos.board ⟨color, .king⟩)).head?

/-- `Position::gen_attacked(color, pieces)`. -/
def gen_attacked (pos : Position) (color : Color) (pieces : Nat) : Nat :=
  let pawn_forward := shift_ver (find_piece pos.board ⟨color, .pawn⟩) color.up
  let a0 := shift_left pawn_forward 1 ||| shift_right pawn_forward 1
  let a1 := (bb_squares (find_piece pos.board ⟨color, .knight⟩)).foldl
    (fun acc f => acc ||| knight_pattern f) a0
  let a2 := (bb_squares (find_piece pos.board ⟨color, .bishop⟩)).foldl
    (fun acc f => acc ||| cast_diagonals f pieces) a1
  let a3 := (bb_squares (find_piece pos.board ⟨color, .rook⟩)).foldl
    (fun acc f => acc ||| cast_cardinals f pieces) a2
  let a4 := (bb_squares (find_piece pos.board ⟨color, .queen⟩)).foldl
    (fun acc f => acc ||| (cast_cardinals f pieces ||| cast_diagonals f pieces)) a3
  match find_king pos color with
  | some king_pos => a4 ||| king_pattern king_pos
  | Option.none => a4

/-- `Position::gen_pawn_moves`: promotion expansion on the relative rank 7. -/
def gen_pawn_moves (color : Color) (from_squ to_squ : Nat) : List Move :=
  if sq_rank to_squ = color.rel_rank 7 then
    [⟨.pawn, from_squ, to_squ, .promote_n⟩, ⟨.pawn, from_squ, to_squ, .promote_b⟩,
     ⟨.pawn, from_squ, to_squ, .promote_r⟩, ⟨.pawn, from_squ, to_squ, .promote_q⟩]
  else
    [⟨.pawn, from_squ, to_squ, .none⟩]

/-- `Position::gen_pseudolegal`, with the moves in the push order of the
source (en passant, pawn singles, pawn doubles, captures left, captures
right, knights, bishops, rooks, queens, king steps, castlings). -/
def gen_pseudolegal (pos : Position) : List Move :=
  let color := side_to_move pos
  let allies := find_color pos.board color
  let enemies := find_color pos.board color.opponent
  let pieces := allies ||| enemies
  let pawns := find_piece pos.board ⟨color, .pawn⟩
  let pawn_forward0 := shift_ver pawns color.up
  let pawn_cap_left := shift_left pawn_forward0 1
  let pawn_cap_right := shift_right pawn_forward0 1
  let ep_moves : List Move :=
    match pos.en_passant_target with
    | some squ =>
      (if bb_at pawn_cap_left squ then
        [⟨.pawn, sq_shift squ 1 color.down, squ, .en_passant⟩] else []) ++
      (if bb_at pawn_cap_right squ then
        [⟨.pawn, sq_shift squ (-1) color.down, squ, .en_passant⟩] else [])
    | Option.none => []
  let pawn_forward := pawn_forward0 &&& bb_not pieces
  let pawn_push := shift_ver pawn_forward color.up &&& bb_not pieces &&& shift_up pos.unmoved 2
  let singles := (bb_squares pawn_forward).flatMap
    (fun t => gen_pawn_moves color (sq_shift t 0 color.down) t)
  let doubles := (bb_squares pawn_push).flatMap
    (fun t => gen_pawn_moves color (sq_shift t 0 (color.down * 2)) t)
  let capsl := (bb_squares (pawn_cap_left &&& enemies)).flatMap
    (fun t => gen_pawn_moves color (sq_shift t 1 color.down) t)
  let capsr := (bb_squares (pawn_cap_right &&& enemies)).flatMap
    (fun t => gen_pawn_moves color (sq_shift t (-1) color.down) t)
  let knights := (bb_squares (find_piece pos.board ⟨color, .knight⟩)).flatMap
    (fun f => (bb_squares (knight_pattern f &&& bb_not allies)).map
      (fun t => (⟨.knight, f, t, .none⟩ : Move)))
  let bishops := (bb_squares (find_piece pos.board ⟨color, .bishop⟩)).flatMap
    (fun f => (bb_squares (cast_diagonals f pieces)).filterMap
      (fun t => if bb_at allies t then Option.none else some (⟨.bishop, f, t, .none⟩ : Move)))
  let rooks := (bb_squares (find_piece pos.board ⟨color, .rook⟩)).flatMap
    (fun f => (bb_squares (cast_cardinals f pieces)).filterMap
      (fun t => if bb_at allies t then Option.none else some (⟨.rook, f, t, .none⟩ : Move)))
  let queens := (bb_squares (find_piece pos.board ⟨color, .queen⟩)).flatMap
    (fun f => (bb_squares (cast_cardinals f pieces ||| cast_diagonals f pieces)).filterMap
      (fun t => if bb_at allies t then Option.none else some (⟨.queen, f, t, .none⟩ : Move)))
  let kings : List Move :=
    match find_king pos color with
    | Option.none => []
    | some king_pos =>
      let attacked := gen_attacked pos color.opponent pieces
      let normals := (bb_squares (king_pattern king_pos &&& bb_not allies)).map
        (fun t => (⟨.king, king_pos, t, .none⟩ : Move))
      let castles : List Move :=
        if bb_at pos.unmoved king_pos then
          let rank0 := color.rel_rank 0
          let queen_corner := square_at 0 rank0
          let king_corner := square_at 7 rank0
          let queen_area := shift_up 0x0000000101010000 rank0
          let king_area := shift_up 0x0001010100000000 rank0
          let except_king := pieces &&& bb_not (bb_one king_pos)
          let queen_side := bb_at pos.unmoved queen_corner && bb_none (queen_area &&& except_king)
          let king_side := bb_at pos.unmoved king_corner && bb_none (king_area &&& except_king)
          (if queen_side && bb_none (attacked &&& queen_area) then
            [⟨.king, king_pos, square_at 2 rank0, .castle_q⟩] else []) ++
          (if king_side && bb_none (attacked &&& king_area) then
            [⟨.king, king_pos, square_at 6 rank0, .castle_k⟩] else [])
        else []
      normals ++ castles
  ep_moves ++ singles ++ doubles ++ capsl ++ capsr ++
    knights ++ bishops ++ rooks ++ queens ++ kings

/-- `Position::is_in_check`. -/
def is_in_check (pos : Position) (color : Color) : Bool :=
  match find_king pos color with
  | some king_pos => bb_at (gen_attacked pos color.opponent (all_pieces pos.board)) king_pos
  | Option.none => true

/-- One step of the capture loop in `apply_move`: if an opponent piece of
type `pt` sits on the destination, remove it, clear its `unmoved` bit, and
record the capture. The state is `(board, unmoved, capture)`. -/
def capture_step (c : Color) (t : Nat) (st : Board × Nat × Bool) (pt : PieceType) :
    Board × Nat × Bool :=
  let piece : Piece := ⟨c, pt⟩
  if bb_at (find_piece st.1 piece) t then
    (st.1.remove t piece, st.2.1 &&& bb_not (bb_one t), true)
  else st

/-- `Position::apply_move`. Debug assertions of the source are omitted; the
`u16` ply counter and the `u8` half-move clock wrap explicitly (`% 65536`
and `% 256`, the release-mode behaviour of `+= 1`). -/
def apply_move (pos : Position) (mov : Move) : Position :=
  let color := side_to_move pos
  let step1 : Board × Nat × Bool :=
    match mov.special with
    | .en_passant =>
      let piece : Piece := ⟨color.opponent, .pawn⟩
      let pawn_squ := square_at (sq_file mov.to_squ) (sq_rank mov.from_squ)
      (pos.board.remove pawn_squ piece, pos.unmoved &&& bb_not (bb_one mov.to_squ), true)
    | .castle_q | .castle_k =>
      let dfile : Int := (sq_file mov.to_squ : Int) - (sq_file mov.from_squ : Int)
      let rank := sq_rank mov.from_squ
      let middle_squ := square_at ((sq_file mov.from_squ : Int) + Int.tdiv dfile 2).toNat rank
      let corner_squ := square_at (if 0 < dfile then 7 else 0) rank
      let rook_piece : Piece := ⟨color, .rook⟩
      ((pos.board.remove corner_squ rook_piece).add middle_squ rook_piece,
       pos.unmoved &&& bb_not (bb_one corner_squ), false)
    | _ =>
      PieceType.all.foldl (capture_step color.opponent mov.to_squ)
        (pos.board, pos.unmoved, false)
  let board1 := step1.1
  let unmoved1 := step1.2.1
  let capture := step1.2.2
  let ep_target : Option Nat :=
    if mov.ptype = .pawn ∧ bb_at unmoved1 mov.from_squ
        ∧ sq_file mov.from_squ = sq_file mov.to_squ
        ∧ ((sq_rank mov.to_squ : Int) - (sq_rank mov.from_squ : Int)).natAbs = 2 then
      some (square_at (sq_file mov.from_squ) ((sq_rank mov.from_squ + sq_rank mov.to_squ) / 2))
    else
      Option.none
  let board2 := board1.remove mov.from_squ ⟨color, mov.ptype⟩
  let final_ptype :=
    match mov.special.get_promotion with
    | some promotion => promotion
    | Option.none => mov.ptype
  let board3 := board2.add mov.to_squ ⟨color, final_ptype⟩
  { board := board3
    unmoved := unmoved1 &&& bb_not (bb_one mov.from_squ ||| bb_one mov.to_squ)
    en_passant_target := ep_target
    ply_number := (pos.ply_number + 1) % 65536
    half_move_clock :=
      if capture = false ∧ mov.ptype ≠ .pawn then (pos.half_move_clock + 1) % 256 else 0 }

/-- `Position::gen_legal`: the 75-half-move cutoff, then the retain filter. -/
def gen_legal (pos : Position) : List Move :=
  if 75 ≤ pos.half_move_clock then []
  else
    let color := side_to_move pos
    (gen_pseudolegal pos).filter (fun mov => ! is_in_check (apply_move pos mov) color)

/-! ### Static evaluation and search (src/ai.rs)

`i16` scores are embedded as `Int`; the arithmetic of the source never
overflows on the boards the engine feeds it, so the embedding is exact. -/

def PAWN_VALUE : List Int :=
  [0, 1, 1, 0, 1, 2, 10, 0] ++
  [0, 2, -1, 0, 1, 2, 10, 0] ++
  [0, 2, -2, 0, 2, 4, 10, 0] ++
  [0, -4, 0, 4, 5, 6, 10, 0] ++
  [0, -4, 0, 4, 5, 6, 10, 0] ++
  [0, 2, -2, 0, 2, 4, 10, 0] ++
  [0, 2, -1, 0, 1, 2, 10, 0] ++
  [0, 1, 1, 0, 1, 2, 10, 0]

def KNIGHT_VALUE : List Int :=
  [-10, -8, -6, -6, -6, -6, -8, -10] ++
  [-8, -4, 1, 0, 1, 0, -4, -8] ++
  [-6, 0, 2, 3, 3, 2, 0, -6] ++
  [-6, 1, 3, 4, 4, 3, 0, -6] ++
  [-6, 1, 3, 4, 4, 3, 0, -6] ++
  [-6, 0, 2, 3, 3, 2, 0, -6] ++
  [-8, -4, 1, 0, 1, 0, -4, -8] ++
  [-10, -8, -6, -6, -6, -6, -8, -10]

def BISHOP_VALUE : List Int :=
  [-4, -2, -2, -2, -2, -2, -2, -4] ++
  [-2, 1, 2, 0, 1, 0, 0, -2] ++
  [-2, 0, 2, 2, 1, 1, 0, -2] ++
  [-2, 0, 2, 2, 2, 2, 0, -2] ++
  [-2, 0, 2, 2, 2, 2, 0, -2] ++
  [-2, 0, 2, 2, 1, 1, 0, -2] ++
  [-2, 1, 2, 0, 1, 0, 0, -2] ++
  [-4, -2, -2, -2, -2, -2, -2, -4]

def ROOK_VALUE : List Int :=
  [0, -1, -1, -1, -1, -1, 1, 0] ++
  [0, 0, 0, 0, 0, 0, 2, 0] ++
  [0, 0, 0, 0, 0, 0, 2, 0] ++
  [1, 0, 0, 0, 0, 0, 2, 0] ++
  [1, 0, 0, 0, 0, 0, 2, 0] ++
  [0, 0, 0, 0, 0, 0, 2, 0] ++
  [0, 0, 0, 0, 0, 0, 2, 0] ++
  [0, -1, -1, -1, -1, -1, 1, 0]

def QUEEN_VALUE : List Int :=
  [-4, -2, -2, 0, -1, -2, -2, -4] ++
  [-2, 0, 1, 0, 0, 0, 0, -2] ++
  [-2, 1, 1, 1, 1, 1, 0, -2] ++
  [-1, 0, 1, 1, 1, 1, 0, -1] ++
  [-1, 0, 1, 1, 1, 1, 0, -1] ++
  [-2, 0, 1, 1, 1, 1, 0, -2] ++
  [-2, 0, 0, 0, 0, 0, 0, -2] ++
  [-4, -2, -2, -1, -1, -2, -2, -4]

def KING_VALUE : List Int :=
  [4, 4, -2, -4, -6, -6, -6, -6] ++
  [6, 4, -4, -6, -8, -8, -8, -8] ++
  [2, 0, -4, -6, -8, -8, -8, -8] ++
  [0, 0, -4, -8, -10, -10, -10, -10] ++
  [0, 0, -4, -8, -10, -10, -10, -10] ++
  [2, 0, -4, -6, -8, -8, -8, -8] ++
  [6, 4, -4, -6, -8, -8, -8, -8] ++
  [4, 4, -2, -4, -6, -6, -6, -6]

def KING_VALUE_ENDGAME : List Int :=
  [-10, -6, -6, -6, -6, -6, -6, -10] ++
  [-6, -6, -2, -2, -2, -2, -4, -8] ++
  [-6, 0, 4, 6, 6, 4, -2, -6] ++
  [-6, 0, 6, 8, 8, 6, 0, -4] ++
  [-6, 0, 6, 8, 8, 6, 0, -4] ++
  [-6, 0, 4, 6, 6, 4, -2, -6] ++
  [-6, -6, -2, -2, -2, -2, -4, -8] ++
  [-10, -6, -6, -6, -6, -6, -6, -10]

/-- `eval_material`: tables are from white's perspective, the board is
rank-flipped for black. -/
def eval_material (board : Board) (p : Piece) (base_val : Int) (table : List Int) : Int :=
  (bb_squares (find_piece board p)).foldl (fun val squ =>
    let squ2 := if p.color = .black then square_at (sq_file squ) (7 - sq_rank squ) else squ
    val + (base_val + 5 * table.getD squ2 0)) 0

/-- `eval_side`. -/
def eval_side (board : Board) (color : Color) (endgame : Bool) : Int :=
  [((.pawn : PieceType), (100 : Int), PAWN_VALUE),
   (.knight, 320, KNIGHT_VALUE),
   (.bishop, 330, BISHOP_VALUE),
   (.rook, 500, ROOK_VALUE),
   (.queen, 900, QUEEN_VALUE),
   (.king, 20000, if endgame then KING_VALUE_ENDGAME else KING_VALUE)].foldl
    (fun val d => val + eval_material board ⟨color, d.1⟩ d.2.1 d.2.2) 0

/-- `is_endgame`. -/
def is_endgame (board : Board) (color : Color) : Bool :=
  let queens := count_pieces board color .queen
  let minor := count_pieces board color .knight + count_pieces board color .bishop
  let other := count_pieces board color .pawn + count_pieces board color .rook
  queens == 0 || (minor ≤ 1 && other == 0)

/-- `eval`: note a single endgame flag, computed for `color`, is passed to
both `eval_side` calls. -/
def eval (board : Board) (color : Color) : Int :=
  let e := is_endgame board color
  eval_side board color e - eval_side board color.opponent e

/-- The move loop of `negamax`, parametrized by the scoring function
`score mov cur_max = -negamax(apply(mov), depth - 1, -max, -cur_max)`:
running maximum `cur_max`, early `return max` on a fail-high cutoff. -/
def negamax_loop (score_of : Move → Int → Int) (maxv : Int) : List Move → Int → Int
  | [], cur_max => cur_max
  | mov :: rest, cur_max =>
    let score := score_of mov cur_max
    if score > cur_max then
      if score ≥ maxv then maxv else negamax_loop score_of maxv rest score
    else
      negamax_loop score_of maxv rest cur_max

/-- `negamax` from src/ai.rs (fail-hard alpha-beta). -/
def negamax : Position → Nat → Int → Int → Int
  | pos, 0, _, _ => eval pos.board (side_to_move pos)
  | pos, d + 1, minv, maxv =>
    if (gen_pseudolegal pos).length = 0 then
      if is_in_check pos (side_to_move pos) then -32767 else 0
    else
      negamax_loop (fun mov cur_max => -(negamax (apply_move pos mov) d (-maxv) (-cur_max)))
        maxv (gen_pseudolegal pos) minv

/-- `SimpleAi::pick_move` at configuration `depth`: the best-scoring move,
ties to the first seen; `none` models the `unwrap` failure branch. -/
def pick_move (pos : Position) (legal_moves : List Move) (depth : Nat) : Option Move :=
  (legal_moves.foldl (fun acc mov =>
    let score := -(negamax (apply_move pos mov) (depth - 1) (-32767) 32767)
    if score > acc.1 then (score, some mov) else acc)
    ((-32768 : Int), (Option.none : Option Move))).2

/-! ### FEN codec (src/state.rs and src/game.rs)

FEN text is embedded as `List Char`; Rust's `str::split` becomes `split_on`. -/

/-- `str::split(sep)`: splits into the (possibly empty) chunks between
separators; always returns at least one chunk. -/
def split_on (sep : Char) : List Char → List (List Char)
  | [] => [[]]
  | c :: rest =>
    match split_on sep rest with
    | [] => [[c]]
    | g :: gs => if c = sep then [] :: g :: gs else (c :: g) :: gs

/-- `parse_file`: letters a-h. -/
def parse_file_char (c : Char) : Option Nat :=
  if 'a' ≤ c ∧ c ≤ 'h' then some (c.toNat - 97) else Option.none

/-- `parse_rank`: digits 1-8. -/
def parse_rank_char (c : Char) : Option Nat :=
  if '1' ≤ c ∧ c ≤ '8' then some (c.toNat - 49) else Option.none

/-- `Square::parse`: exactly two characters, file letter then rank digit. -/
def square_parse (cs : List Char) : Option Nat :=
  match cs with
  | [a, b] => (parse_file_char a).bind fun f => (parse_rank_char b).map fun r => square_at f r
  | _ => Option.none

/-- `Piece::from_fen` over the alphabet `PNBRQKpnbrqk`. -/
def piece_from_fen (c : Char) : Option Piece :=
  match c with
  | 'P' => some ⟨.white, .pawn⟩   | 'N' => some ⟨.white, .knight⟩
  | 'B' => some ⟨.white, .bishop⟩ | 'R' => some ⟨.white, .rook⟩
  | 'Q' => some ⟨.white, .queen⟩  | 'K' => some ⟨.white, .king⟩
  | 'p' => some ⟨.black, .pawn⟩   | 'n' => some ⟨.black, .knight⟩
  | 'b' => some ⟨.black, .bishop⟩ | 'r' => some ⟨.black, .rook⟩
  | 'q' => some ⟨.black, .queen⟩  | 'k' => some ⟨.black, .king⟩
  | _ => Option.none

/-- `Piece::to_fen`. -/
def piece_to_fen (p : Piece) : Char :=
  match p.color, p.ptype with
  | .white, .pawn => 'P'   | .white, .knight => 'N' | .white, .bishop => 'B'
  | .white, .rook => 'R'   | .white, .queen => 'Q'  | .white, .king => 'K'
  | .black, .pawn => 'p'   | .black, .knight => 'n' | .black, .bishop => 'b'
  | .black, .rook => 'r'   | .black, .queen => 'q'  | .black, .king => 'k'

/-- One rank field of `Board::from_fen`: `file` is the running file count,
digits 1-8 skip files, letters place pieces, non-ASCII or an overfull or
underfull rank fails. -/
def parse_rank_field : List Char → Nat → Nat → Board → Option Board
  | [], _, file, b => if file = 8 then some b else Option.none
  | c :: cs, rank, file, b =>
    if 8 ≤ file ∨ ¬ c.toNat ≤ 127 then Option.none
    else if '1' ≤ c ∧ c ≤ '8' then parse_rank_field cs rank (file + (c.toNat - 48)) b
    else
      match piece_from_fen c with
      | some p => parse_rank_field cs rank (file + 1) (b.add (square_at file rank) p)
      | Option.none => Option.none

/-- The rank loop of `Board::from_fen`: `rank` counts down from 8 and must
reach exactly 0. -/
def board_from_fen_ranks : List (List Char) → Nat → Board → Option Board
  | [], rank, b => if rank = 0 then some b else Option.none
  | field :: rest, rank, b =>
    if rank = 0 then Option.none
    else (parse_rank_field field (rank - 1) 0 b).bind fun b2 =>
      board_from_fen_ranks rest (rank - 1) b2

/-- `Board::from_fen`. -/
def board_from_fen (cs : List Char) : Option Board :=
  board_from_fen_ranks (split_on '/' cs) 8 Board.empty

/-- Rust's unsigned `from_str`: optional leading `+`, decimal digits,
failure above `maxv` (the type's maximum). -/
def parse_u (maxv : Nat) (cs : List Char) : Option Nat :=
  let ds := match cs with | '+' :: rest => rest | _ => cs
  if ds = [] then Option.none
  else if ds.all (fun c => '0' ≤ c ∧ c ≤ '9') then
    let v := ds.foldl (fun a c => a * 10 + (c.toNat - 48)) 0
    if v ≤ maxv then some v else Option.none
  else Option.none

/-- One castling-rights character: `(color, rook home, king home)`. -/
def castle_char_info (c : Char) : Option (Color × Nat × Nat) :=
  if c = 'K' then some (.white, square_at 7 0, square_at 4 0)
  else if c = 'Q' then some (.white, square_at 0 0, square_at 4 0)
  else if c = 'k' then some (.black, square_at 7 7, square_at 4 7)
  else if c = 'q' then some (.black, square_at 0 7, square_at 4 7)
  else Option.none

/-- The castling-rights loop of `Position::from_fen`: each character is
validated against the actual rook/king placement and adds both home squares
to `unmoved`. -/
def castle_fold (board : Board) : List Char → Nat → Option Nat
  | [], unmoved => some unmoved
  | c :: cs, unmoved =>
    match castle_char_info c with
    | Option.none => Option.none
    | some (color, rook_pos, king_pos) =>
      if bb_at (find_piece board ⟨color, .rook⟩) rook_pos
          && bb_at (find_piece board ⟨color, .king⟩) king_pos then
        castle_fold board cs (unmoved ||| bb_one rook_pos ||| bb_one king_pos)
      else Option.none

/-- `Position::from_fen`. The `u16` expression
`2 * move_number + side_to_move as u16 - 1` wraps, hence the explicit
`% 65536` with `+ 65535` standing for the wrapping `- 1`. -/
def from_fen (cs : List Char) : Option Position :=
  match split_on ' ' cs with
  | [f1, f2, f3, f4, f5, f6] =>
    (board_from_fen f1).bind fun board =>
    let unmoved0 := (find_piece board ⟨.white, .pawn⟩ &&& bb_rank 1) |||
                    (find_piece board ⟨.black, .pawn⟩ &&& bb_rank 6)
    (if f2 = ['w'] then some Color.white
     else if f2 = ['b'] then some Color.black
     else Option.none).bind fun stm =>
    (if f3 = ['-'] then some unmoved0 else castle_fold board f3 unmoved0).bind fun unmoved =>
    (if f4 = ['-'] then some (Option.none : Option Nat)
     else (square_parse f4).map some).bind fun ep =>
    (parse_u 255 f5).bind fun hmc =>
    (parse_u 65535 f6).bind fun mn =>
    some { board := board, unmoved := unmoved, en_passant_target := ep,
           ply_number := (2 * mn + stm.ordinal + 65535) % 65536,
           half_move_clock := hmc }
  | _ => Option.none

/-- Decimal digit characters of a natural number, most significant first
(Rust's `Display` for unsigned integers). The first argument is fuel; any
fuel at least the value suffices, and `nat_digits` passes the value. -/
def nat_digits_aux : Nat → Nat → List Char → List Char
  | 0, n, acc => Char.ofNat (48 + n % 10) :: acc
  | fuel + 1, n, acc =>
    if n < 10 then Char.ofNat (48 + n) :: acc
    else nat_digits_aux fuel (n / 10) (Char.ofNat (48 + n % 10) :: acc)

def nat_digits (n : Nat) : List Char := nat_digits_aux n n []

/-- The file loop of `Board::to_fen` for one rank, carrying the pending
blank-run count. -/
def encode_rank_files (b : Board) (rank : Nat) : List Nat → Nat → List Char
  | [], blanks => if blanks ≠ 0 then [Char.ofNat (48 + blanks)] else []
  | f :: fs, blanks =>
    match piece_at b (square_at f rank) with
    | some p =>
      (if blanks ≠ 0 then [Char.ofNat (48 + blanks)] else []) ++
        piece_to_fen p :: encode_rank_files b rank fs 0
    | Option.none => encode_rank_files b rank fs (blanks + 1)

/-- The rank loop of `Board::to_fen` (ranks 8 down to 1, `/`-separated). -/
def board_to_fen_ranks (b : Board) : List Nat → List Char
  | [] => []
  | [r] => encode_rank_files b r (List.range 8) 0
  | r :: rest => encode_rank_files b r (List.range 8) 0 ++ '/' :: board_to_fen_ranks b rest

/-- `Board::to_fen`. -/
def board_to_fen (b : Board) : List Char :=
  board_to_fen_ranks b [7, 6, 5, 4, 3, 2, 1, 0]

/-- `Color::to_fen`. -/
def color_to_fen (c : Color) : Char :=
  match c with | .white => 'w' | .black => 'b'

/-- The castling-rights field of `Position::to_fen`. -/
def castle_field (pos : Position) : List Char :=
  let kw := bb_at pos.unmoved (square_at 4 0)
  let kb := bb_at pos.unmoved (square_at 4 7)
  let ckw := kw && bb_at pos.unmoved (square_at 7 0)
  let cqw := kw && bb_at pos.unmoved (square_at 0 0)
  let ckb := kb && bb_at pos.unmoved (square_at 7 7)
  let cqb := kb && bb_at pos.unmoved (square_at 0 7)
  if !ckw && !cqw && !ckb && !cqb then ['-']
  else
    (if ckw then ['K'] else []) ++ (if cqw then ['Q'] else []) ++
    (if ckb then ['k'] else []) ++ (if cqb then ['q'] else [])

/-- The en-passant field of `Position::to_fen`. -/
def ep_field (pos : Position) : List Char :=
  match pos.en_passant_target with
  | some squ => [Char.ofNat (97 + sq_file squ), Char.ofNat (49 + sq_rank squ)]
  | Option.none => ['-']

/-- The full-move number printed by `Position::to_fen`:
`(ply_number - 1) / 2 + 1` with a wrapping `u16` subtraction, written with
`+ 65535` and `% 65536`. -/
def move_number_of (pos : Position) : Nat :=
  ((pos.ply_number + 65535) % 65536) / 2 + 1

/-- `Position::to_fen`. -/
def to_fen (pos : Position) : List Char :=
  board_to_fen pos.board ++ ' ' :: color_to_fen (side_to_move pos) :: ' ' :: castle_field pos ++
    ' ' :: ep_field pos ++ ' ' :: nat_digits pos.half_move_clock ++
    ' ' :: nat_digits (move_number_of pos)

/-- `Position::FEN_INITIAL`. -/
def FEN_INITIAL : List Char :=
  "rnbqkbnr/pppppppp/8/8/8/8/PPPPPPPP/RNBQKBNR w KQkq - 0 1".toList

/-! ### Auxiliary definitions used by the claim statements -/

/-- Fallback value for reading off a parsed position. -/
def default_pos : Position := ⟨Board.empty, 0, Option.none, 1, 0⟩

/-- The position after 1. e4 (Black to move; the e7 pawn is unmoved and
e6/e5 are empty). -/
def pos_after_e4 : Position :=
  (from_fen "rnbqkbnr/pppppppp/8/8/4P3/8/PPPP1PPP/RNBQKBNR b KQkq e3 0 1".toList).getD default_pos

/-- White to move with castling rights `Q`, the b1 square occupied by a
knight, and c1/d1 empty. -/
def pos_castle_b1 : Position :=
  (from_fen "4k3/8/8/8/8/8/8/RN2K3 w Q - 0 1".toList).getD default_pos

/-- A board where White (queen, rook, king) is not in the endgame while
Black (lone king) is. -/
def board_c3 : Board :=
  (board_from_fen "4k3/8/8/8/8/8/8/Q3K2R".toList).getD Board.empty

/-- Per-side endgame selection, following the spec's words: endgame
detection and king-table selection are evaluated per the side being scored,
then combined. Used for comparison with `eval`. -/
def eval_spec (board : Board) (color : Color) : Int :=
  eval_side board color (is_endgame board color) -
  eval_side board color.opponent (is_endgame board color.opponent)

/-- A position (from a crafted FEN) whose en-passant target square d3 holds
a white knight, with a white pawn on e2 able to "capture en passant" onto it. -/
def pos_ep_own : Position :=
  (from_fen "k7/8/8/8/8/3N4/4P3/K7 w - d3 0 1".toList).getD default_pos

/-- A king-versus-king position with White to move. -/
def pos_kings : Position :=
  (from_fen "k7/8/8/8/8/8/8/K7 w - - 0 1".toList).getD default_pos

/-- The initial position, parsed from `FEN_INITIAL`. -/
def pos_initial : Position := (from_fen FEN_INITIAL).getD default_pos

/-- An empty board whose FEN carries full-move number 40000: the `u16` ply
computation `2 * 40000 - 1` wraps to 14463. -/
def pos_mn40000 : Position :=
  (from_fen "8/8/8/8/8/8/8/8 w - - 0 40000".toList).getD default_pos

/-- The capture flag computed by `apply_move`: en passant always captures,
castling never does, and otherwise a capture happens exactly when an
opponent piece sits on the destination square. -/
def is_capture (pos : Position) (mov : Move) : Bool :=
  match mov.special with
  | .en_passant => true
  | .castle_q | .castle_k => false
  | _ => bb_at (find_color pos.board (side_to_move pos).opponent) mov.to_squ

/-- The lower endpoint of the span described by the spec for `cast_ray`:
the nearest obstacle strictly below the origin, defaulting to the first
(lowest) square of the line template. -/
def ray_lo (from_squ pattern pieces : Nat) : Nat :=
  let obstacles := pattern &&& pieces &&& bb_not (bb_one from_squ)
  match last_bit (obstacles &&& (U64MASK >>> (63 - from_squ))) with
  | some i => i
  | Option.none => (first_bit pattern).getD 0

/-- The upper endpoint of the span described by the spec for `cast_ray`:
the nearest obstacle strictly above the origin, defaulting to the last
(highest) square of the line template. -/
def ray_hi (from_squ pattern pieces : Nat) : Nat :=
  let obstacles := pattern &&& pieces &&& bb_not (bb_one from_squ)
  match first_bit (obstacles &&& ((U64MASK <<< from_squ) &&& U64MASK)) with
  | some i => i
  | Option.none => (last_bit pattern).getD 63

/-! ## General lemmas about the embedding -/

theorem U64MASK_eq : U64MASK = 2 ^ 64 - 1 := by decide

theorem bb_at_lor (a b i : Nat) : bb_at (a ||| b) i = (bb_at a i || bb_at b i) := by
  simp [bb_at, Nat.testBit_lor]

theorem bb_at_land (a b i : Nat) : bb_at (a &&& b) i = (bb_at a i && bb_at b i) := by
  simp [bb_at, Nat.testBit_and]

theorem bb_at_zero (i : Nat) : bb_at 0 i = false := by
  simp [bb_at]

theorem bb_at_mask (i : Nat) : bb_at U64MASK i = decide (i < 64) := by
  rw [bb_at, U64MASK_eq, Nat.testBit_two_pow_sub_one]

theorem bb_at_not (x i : Nat) (h : i < 64) : bb_at (bb_not x) i = ! bb_at x i := by
  have hm : U64MASK.testBit i = true := by
    rw [U64MASK_eq, Nat.testBit_two_pow_sub_one]
    exact decide_eq_true h
  simp only [bb_not, bb_at, Nat.testBit_xor, hm]
  cases x.testBit i <;> rfl

theorem bb_one_eq (s : Nat) : bb_one s = 2 ^ s := by
  simp [bb_one, Nat.shiftLeft_eq]

theorem bb_at_one (s i : Nat) : bb_at (bb_one s) i = decide (s = i) := by
  simp [bb_at, bb_one_eq, Nat.testBit_two_pow]

theorem mem_bb_squares {x i : Nat} : i ∈ bb_squares x ↔ i < 64 ∧ bb_at x i = true := by
  simp [bb_squares, List.mem_filter, List.mem_range, bb_at]

theorem sq_rank_lt (squ : Nat) : sq_rank squ < 8 := by
  have : squ &&& 7 ≤ 7 := Nat.and_le_right
  simpa [sq_rank] using Nat.lt_succ_of_le this

/-- `square_at` agrees with `file * 8 + rank` when the rank is in range. -/
theorem square_at_eq (f r : Nat) (h : r < 8) : square_at f r = 8 * f + r := by
  apply Nat.eq_of_testBit_eq
  intro i
  have h8 : 8 * f = 2 ^ 3 * f := by norm_num
  have hr : r < 2 ^ 3 := by simpa using h
  rw [square_at, Nat.testBit_lor, h8, Nat.testBit_mul_pow_two_add f hr i,
    Nat.testBit_shiftLeft]
  by_cases hi : i < 3
  · have h3 : ¬ 3 ≤ i := by omega
    simp [hi, h3]
  · have h3 : 3 ≤ i := by omega
    have hrz : r.testBit i = false := Nat.testBit_lt_two_pow (by calc
      r < 2 ^ 3 := hr
      _ ≤ 2 ^ i := Nat.pow_le_pow_right (by norm_num) h3)
    simp [hi, h3, hrz]

/-! ## Claim C1 -/

/-- C1: the claimed double-push rule fails on the code. In the position
after 1. e4 it is Black to move, the e7 pawn (square index 38, file e rank 7)
is a member of `unmoved`, and e6 and e5 are both empty, yet `gen_pseudolegal`
emits no move from e7 to e5: the eligibility mask `unmoved.shift_up(2)` is
shifted up for both colors, so Black double pushes are never generated from
the home rank. -/
theorem c1_black_double_push_missing :
    from_fen "rnbqkbnr/pppppppp/8/8/4P3/8/PPPP1PPP/RNBQKBNR b KQkq e3 0 1".toList
      = some pos_after_e4
    ∧ side_to_move pos_after_e4 = .black
    ∧ bb_at (find_piece pos_after_e4.board ⟨.black, .pawn⟩) (square_at 4 6) = true
    ∧ bb_at pos_after_e4.unmoved (square_at 4 6) = true
    ∧ bb_at (all_pieces pos_after_e4.board) (square_at 4 5) = false
    ∧ bb_at (all_pieces pos_after_e4.board) (square_at 4 4) = false
    ∧ (gen_pseudolegal pos_after_e4).all
        (fun m => !(m.from_squ == square_at 4 6 && m.to_squ == square_at 4 4)) = true := by
  decide

/-! ## Claim C2 -/

/-- C2: queenside castling is emitted although the square b1, strictly
between the king on e1 and the rook on a1, is occupied by a knight: the
emptiness mask `queen_area` covers only c1, d1, e1. -/
theorem c2_castle_emitted_through_occupied_b1 :
    from_fen "4k3/8/8/8/8/8/8/RN2K3 w Q - 0 1".toList = some pos_castle_b1
    ∧ (gen_pseudolegal pos_castle_b1).contains ⟨.king, square_at 4 0, square_at 2 0, .castle_q⟩
        = true
    ∧ bb_at (all_pieces pos_castle_b1.board) (square_at 1 0) = true := by
  decide

/-! ## Claim C3 -/

/-- C3 counterexample: on a board where White (queen, rook, king) is not in
the endgame but Black (lone king) is, the evaluator's score differs from the
claimed per-side combination `eval_spec`: the code computes a single endgame
flag from the scored color and reuses it for the opponent's king table. -/
theorem c3_per_side_endgame_refuted :
    board_from_fen "4k3/8/8/8/8/8/8/Q3K2R".toList = some board_c3
    ∧ is_endgame board_c3 .white = false
    ∧ is_endgame board_c3 .black = true
    ∧ eval board_c3 .white ≠ eval_spec board_c3 .white := by
  decide

/-- C3 as amended: the net score for `color` is its side score minus the
opponent's side score, where the endgame status selecting the king table is
computed once from `color`'s own material and used for both sides. -/
theorem c3_single_endgame_flag (board : Board) (color : Color) :
    eval board color =
      eval_side board color (is_endgame board color) -
        eval_side board color.opponent (is_endgame board color) := rfl

/-! ## Claim C6 -/

/-- C6: at depth 0, `negamax` returns the static evaluation for the side to
move, for every alpha-beta window; at any depth at least 1, when the
pseudo-legal move list is empty it returns -32767 (the maximal negative
sentinel, since i16 scores are negated as `-i16::MAX`) if the side to move
is in check and 0 (draw) otherwise. -/
theorem c6_negamax_leaves :
    (∀ (pos : Position) (minv maxv : Int),
      negamax pos 0 minv maxv = eval pos.board (side_to_move pos))
    ∧ (∀ (pos : Position) (depth : Nat) (minv maxv : Int), 1 ≤ depth →
        gen_pseudolegal pos = [] →
        negamax pos depth minv maxv =
          if is_in_check pos (side_to_move pos) then -32767 else 0) := by
  constructor
  · intro pos minv maxv
    rfl
  · intro pos depth minv maxv hd hmoves
    match depth, hd with
    | d + 1, _ => simp [negamax, hmoves]

/-- C6 witness: on the empty position there are no pseudo-legal moves and no
king (which counts as being in check), so depth-1 negamax returns -32767;
and a depth-0 call returns the static evaluation. -/
theorem c6_negamax_leaves_witness :
    gen_pseudolegal default_pos = []
    ∧ negamax default_pos 1 (-32767) 32767 = -32767
    ∧ negamax pos_kings 0 (-32767) 32767 = eval pos_kings.board (side_to_move pos_kings) := by
  have h : gen_pseudolegal default_pos = [] := by decide
  refine ⟨h, ?_, c6_negamax_leaves.1 pos_kings (-32767) 32767⟩
  rw [c6_negamax_leaves.2 default_pos 1 (-32767) 32767 (by decide) h]
  decide

/-! ## Claim C9 -/

theorem capture_fold_stays_true (c : Color) (t : Nat) (l : List PieceType)
    (st : Board × Nat × Bool) (h : st.2.2 = true) :
    (l.foldl (capture_step c t) st).2.2 = true := by
  induction l generalizing st with
  | nil => exact h
  | cons pt rest ih =>
    simp only [List.foldl_cons]
    apply ih
    cases hb : bb_at (find_piece st.1 ⟨c, pt⟩) t <;> simp [capture_step, hb, h]

theorem capture_fold_flag_gen (c : Color) (t : Nat) (l : List PieceType)
    (b : Board) (u : Nat) :
    (l.foldl (capture_step c t) (b, u, false)).2.2
      = l.any (fun pt => bb_at (find_piece b ⟨c, pt⟩) t) := by
  induction l generalizing b u with
  | nil => rfl
  | cons pt rest ih =>
    simp only [List.foldl_cons, List.any_cons]
    by_cases h : bb_at (find_piece b ⟨c, pt⟩) t = true
    · rw [h]
      simp only [capture_step, h, if_true, Bool.true_or]
      exact capture_fold_stays_true c t rest _ rfl
    · rw [Bool.not_eq_true] at h
      rw [h]
      simp only [capture_step, h, if_false, Bool.false_or]
      exact ih b u

/-- The capture flag computed by the capture loop equals occupancy of the
destination by any opponent piece. -/
theorem capture_fold_flag (c : Color) (t : Nat) (b : Board) (u : Nat) :
    (PieceType.all.foldl (capture_step c t) (b, u, false)).2.2
      = bb_at (find_color b c) t := by
  rw [capture_fold_flag_gen]
  simp [PieceType.all, find_color, bb_at_lor, bb_at_zero, Bool.or_assoc]

/-- A bare-kings position accepted by `from_fen` with half-move clock 255,
the largest value `parse_u 255` admits. -/
def pos_hmc255 : Position :=
  (from_fen "k7/8/8/8/8/8/8/K7 w - - 255 1".toList).getD default_pos

/-- C9 counterexample: at half-move clock 255 the `u8` clock wraps, so a
quiet (non-capture, non-pawn) king move sets the clock to 0, not to the
claimed `255 + 1`. The position is accepted by `from_fen`. -/
theorem c9_clock_wrap_at_255 :
    from_fen "k7/8/8/8/8/8/8/K7 w - - 255 1".toList = some pos_hmc255
    ∧ pos_hmc255.half_move_clock = 255
    ∧ is_capture pos_hmc255 ⟨.king, square_at 0 0, square_at 1 0, .none⟩ = false
    ∧ (⟨.king, square_at 0 0, square_at 1 0, .none⟩ : Move).ptype ≠ .pawn
    ∧ (apply_move pos_hmc255 ⟨.king, square_at 0 0, square_at 1 0, .none⟩).half_move_clock = 0
    ∧ pos_hmc255.half_move_clock + 1 ≠ 0 := by
  refine ⟨by decide, by decide, by decide, by decide, by decide, by decide⟩

/-- C9 (amended): a position whose half-move clock has reached 75 generates
no legal moves, and `apply_move` resets the half-move clock to 0 on any
capture (en passant included, castling excluded, otherwise an opponent piece
on the destination) or pawn move, and otherwise increments it by one modulo
256 (the `u8` wrap: from 255 the clock returns to 0). -/
theorem c9_half_move_clock :
    (∀ pos : Position, 75 ≤ pos.half_move_clock → gen_legal pos = [])
    ∧ (∀ (pos : Position) (mov : Move),
        (apply_move pos mov).half_move_clock =
          if is_capture pos mov = true ∨ mov.ptype = .pawn then 0
          else (pos.half_move_clock + 1) % 256) := by
  constructor
  · intro pos h
    rw [gen_legal, if_pos h]
  · intro pos mov
    by_cases hp : mov.ptype = .pawn
    · cases hs : mov.special <;>
        simp [apply_move, is_capture, hs, hp, capture_fold_flag]
    · cases hs : mov.special <;>
        · simp only [apply_move, is_capture, hs, capture_fold_flag]
          by_cases hc : bb_at (find_color pos.board (side_to_move pos).opponent) mov.to_squ
            = true <;>
            simp [hc, hp]

/-- C9 witness: a position with half-move clock 75 has no legal moves, and a
plain king move (no capture, not a pawn) increments the clock from 0 to 1. -/
theorem c9_half_move_clock_witness :
    gen_legal ⟨Board.empty, 0, Option.none, 1, 75⟩ = []
    ∧ (apply_move pos_kings ⟨.king, square_at 0 0, square_at 1 0, .none⟩).half_move_clock = 1 := by
  constructor
  · exact c9_half_move_clock.1 ⟨Board.empty, 0, Option.none, 1, 75⟩ (by decide)
  · rw [c9_half_move_clock.2 pos_kings ⟨.king, square_at 0 0, square_at 1 0, .none⟩]
    decide

/-! ## Claim C4 -/

theorem mem_gen_pawn_moves {mov : Move} {c : Color} {f t : Nat}
    (h : mov ∈ gen_pawn_moves c f t) :
    mov.ptype = .pawn ∧ mov.from_squ = f ∧ mov.to_squ = t := by
  rw [gen_pawn_moves] at h
  by_cases hr : sq_rank t = c.rel_rank 7
  · rw [if_pos hr] at h
    simp only [List.mem_cons, List.not_mem_nil, or_false] at h
    rcases h with rfl | rfl | rfl | rfl <;> exact ⟨rfl, rfl, rfl⟩
  · rw [if_neg hr] at h
    simp only [List.mem_cons, List.not_mem_nil, or_false] at h
    rcases h with rfl
    exact ⟨rfl, rfl, rfl⟩

theorem sq_not_pieces {x pieces t : Nat} (h : t ∈ bb_squares (x &&& bb_not pieces)) :
    bb_at pieces t = false := by
  obtain ⟨ht, hb⟩ := mem_bb_squares.mp h
  rw [bb_at_land, bb_at_not _ _ ht] at hb
  cases hp : bb_at pieces t
  · rfl
  · rw [hp] at hb
    simp at hb

theorem sq_not_pieces2 {x pieces z t : Nat}
    (h : t ∈ bb_squares (x &&& bb_not pieces &&& z)) :
    bb_at pieces t = false := by
  obtain ⟨ht, hb⟩ := mem_bb_squares.mp h
  rw [bb_at_land, bb_at_land, bb_at_not _ _ ht] at hb
  cases hp : bb_at pieces t
  · rfl
  · rw [hp] at hb
    simp at hb

theorem sq_in_second {x y t : Nat} (h : t ∈ bb_squares (x &&& y)) :
    bb_at y t = true := by
  obtain ⟨_, hb⟩ := mem_bb_squares.mp h
  rw [bb_at_land] at hb
  exact (Bool.and_eq_true_iff.mp hb).2

theorem not_ally_of_pieces_clear {allies enemies t : Nat}
    (h : bb_at (allies ||| enemies) t = false) : bb_at allies t = false := by
  rw [bb_at_lor] at h
  cases ha : bb_at allies t
  · rfl
  · rw [ha] at h
    simp at h

theorem not_ally_of_disjoint {allies enemies t : Nat}
    (hdisj : allies &&& enemies = 0)
    (he : bb_at enemies t = true) : bb_at allies t = false := by
  cases ha : bb_at allies t
  · rfl
  · exfalso
    have : bb_at (allies &&& enemies) t = true := by
      rw [bb_at_land, ha, he]
      rfl
    rw [hdisj, bb_at_zero] at this
    exact Bool.noConfusion this

/-- Every pseudo-legal move of a position with disjoint occupancies, an
en-passant target free of the mover's pieces, and any unmoved king on the
e-file lands on a square without a piece of the moving side. -/
theorem gen_pseudolegal_no_own_capture (pos : Position)
    (hdisj : find_color pos.board (side_to_move pos) &&&
      find_color pos.board (side_to_move pos).opponent = 0)
    (hep : ∀ squ, pos.en_passant_target = some squ →
      bb_at (find_color pos.board (side_to_move pos)) squ = false)
    (hking : ∀ k, find_king pos (side_to_move pos) = some k →
      bb_at pos.unmoved k = true → sq_file k = 4) :
    ∀ mov ∈ gen_pseudolegal pos,
      bb_at (find_color pos.board (side_to_move pos)) mov.to_squ = false := by
  intro mov hmem
  simp only [gen_pseudolegal, List.mem_append] at hmem
  rcases hmem with
    (((((((((hep_m | hsingle) | hdouble) | hcapl) | hcapr) | hknight) | hbishop)
      | hrook) | hqueen) | hking_m)
  · -- en passant moves
    cases hept : pos.en_passant_target with
    | none =>
      rw [hept] at hep_m
      exact absurd hep_m (List.not_mem_nil mov)
    | some squ =>
      rw [hept] at hep_m
      rw [List.mem_append] at hep_m
      have hto : mov.to_squ = squ := by
        rcases hep_m with h | h <;>
          · split at h
            · simp only [List.mem_singleton] at h
              rw [h]
            · exact absurd h (List.not_mem_nil mov)
      rw [hto]
      exact hep squ hept
  · -- pawn single pushes
    rw [List.mem_flatMap] at hsingle
    obtain ⟨t, htmem, hmv⟩ := hsingle
    obtain ⟨_, _, hto⟩ := mem_gen_pawn_moves hmv
    rw [hto]
    exact not_ally_of_pieces_clear (sq_not_pieces htmem)
  · -- pawn double pushes
    rw [List.mem_flatMap] at hdouble
    obtain ⟨t, htmem, hmv⟩ := hdouble
    obtain ⟨_, _, hto⟩ := mem_gen_pawn_moves hmv
    rw [hto]
    exact not_ally_of_pieces_clear (sq_not_pieces2 htmem)
  · -- pawn captures toward lower files
    rw [List.mem_flatMap] at hcapl
    obtain ⟨t, htmem, hmv⟩ := hcapl
    obtain ⟨_, _, hto⟩ := mem_gen_pawn_moves hmv
    rw [hto]
    exact not_ally_of_disjoint hdisj (sq_in_second htmem)
  · -- pawn captures toward higher files
    rw [List.mem_flatMap] at hcapr
    obtain ⟨t, htmem, hmv⟩ := hcapr
    obtain ⟨_, _, hto⟩ := mem_gen_pawn_moves hmv
    rw [hto]
    exact not_ally_of_disjoint hdisj (sq_in_second htmem)
  · -- knight moves
    rw [List.mem_flatMap] at hknight
    obtain ⟨f, _, hmv⟩ := hknight
    rw [List.mem_map] at hmv
    obtain ⟨t, htmem, hmv⟩ := hmv
    rw [← hmv]
    obtain ⟨ht64, hb⟩ := mem_bb_squares.mp htmem
    rw [bb_at_land, bb_at_not _ _ ht64] at hb
    show bb_at (find_color pos.board (side_to_move pos)) t = false
    simpa using (Bool.and_eq_true_iff.mp hb).2
  · -- bishop moves
    rw [List.mem_flatMap] at hbishop
    obtain ⟨f, _, hmv⟩ := hbishop
    rw [List.mem_filterMap] at hmv
    obtain ⟨t, _, hmv⟩ := hmv
    split at hmv
    · exact Option.noConfusion hmv
    · rename_i hguard
      obtain rfl := Option.some_inj.mp hmv
      simpa using hguard
  · -- rook moves
    rw [List.mem_flatMap] at hrook
    obtain ⟨f, _, hmv⟩ := hrook
    rw [List.mem_filterMap] at hmv
    obtain ⟨t, _, hmv⟩ := hmv
    split at hmv
    · exact Option.noConfusion hmv
    · rename_i hguard
      obtain rfl := Option.some_inj.mp hmv
      simpa using hguard
  · -- queen moves
    rw [List.mem_flatMap] at hqueen
    obtain ⟨f, _, hmv⟩ := hqueen
    rw [List.mem_filterMap] at hmv
    obtain ⟨t, _, hmv⟩ := hmv
    split at hmv
    · exact Option.noConfusion hmv
    · rename_i hguard
      obtain rfl := Option.some_inj.mp hmv
      simpa using hguard
  · -- king moves and castling
    cases hfk : find_king pos (side_to_move pos) with
    | none =>
      rw [hfk] at hking_m
      exact absurd hking_m (List.not_mem_nil mov)
    | some king_pos =>
      rw [hfk] at hking_m
      rw [List.mem_append] at hking_m
      rcases hking_m with hnormal | hcastle
      · rw [List.mem_map] at hnormal
        obtain ⟨t, htmem, hmv⟩ := hnormal
        rw [← hmv]
        obtain ⟨ht64, hb⟩ := mem_bb_squares.mp htmem
        rw [bb_at_land, bb_at_not _ _ ht64] at hb
        show bb_at (find_color pos.board (side_to_move pos)) t = false
        simpa using (Bool.and_eq_true_iff.mp hb).2
      · by_cases hunm : bb_at pos.unmoved king_pos = true
        · rw [if_pos hunm, List.mem_append] at hcastle
          have hfile := hking king_pos hfk hunm
          cases ha : bb_at (find_color pos.board (side_to_move pos)) mov.to_squ
          · rfl
          · exfalso
            rcases hcastle with hq | hk2
            · split at hq
              · rename_i hcond
                simp only [List.mem_singleton] at hq
                rw [Bool.and_eq_true, Bool.and_eq_true] at hcond
                obtain ⟨⟨_, hempty⟩, _⟩ := hcond
                have hnone := of_decide_eq_true (by simpa [bb_none] using hempty :
                  decide ((shift_up 0x0000000101010000 ((side_to_move pos).rel_rank 0) &&&
                    ((find_color pos.board (side_to_move pos) |||
                      find_color pos.board (side_to_move pos).opponent) &&&
                      bb_not (bb_one king_pos))) = 0))
                have hdest : mov.to_squ = square_at 2 ((side_to_move pos).rel_rank 0) := by
                  rw [hq]
                have harea : bb_at (shift_up 0x0000000101010000
                    ((side_to_move pos).rel_rank 0)) mov.to_squ = true := by
                  rw [hdest]
                  cases side_to_move pos <;> decide
                have ht64 : mov.to_squ < 64 := by
                  rw [hdest]
                  cases side_to_move pos <;> decide
                have hb0 : bb_at ((shift_up 0x0000000101010000 ((side_to_move pos).rel_rank 0) &&&
                    ((find_color pos.board (side_to_move pos) |||
                      find_color pos.board (side_to_move pos).opponent) &&&
                      bb_not (bb_one king_pos)))) mov.to_squ = false := by
                  rw [hnone, bb_at_zero]
                rw [bb_at_land, bb_at_land, bb_at_lor, bb_at_not _ _ ht64, bb_at_one,
                  harea, ha] at hb0
                simp only [Bool.true_and, Bool.true_or, Bool.true_and] at hb0
                have hkp : king_pos = mov.to_squ := by
                  by_cases hkd : king_pos = mov.to_squ
                  · exact hkd
                  · rw [decide_eq_false hkd] at hb0
                    simp at hb0
                rw [hkp, hdest] at hfile
                revert hfile
                cases side_to_move pos <;> decide
              · exact absurd hq (List.not_mem_nil mov)
            · split at hk2
              · rename_i hcond
                simp only [List.mem_singleton] at hk2
                rw [Bool.and_eq_true, Bool.and_eq_true] at hcond
                obtain ⟨⟨_, hempty⟩, _⟩ := hcond
                have hnone := of_decide_eq_true (by simpa [bb_none] using hempty :
                  decide ((shift_up 0x0001010100000000 ((side_to_move pos).rel_rank 0) &&&
                    ((find_color pos.board (side_to_move pos) |||
                      find_color pos.board (side_to_move pos).opponent) &&&
                      bb_not (bb_one king_pos))) = 0))
                have hdest : mov.to_squ = square_at 6 ((side_to_move pos).rel_rank 0) := by
                  rw [hk2]
                have harea : bb_at (shift_up 0x0001010100000000
                    ((side_to_move pos).rel_rank 0)) mov.to_squ = true := by
                  rw [hdest]
                  cases side_to_move pos <;> decide
                have ht64 : mov.to_squ < 64 := by
                  rw [hdest]
                  cases side_to_move pos <;> decide
                have hb0 : bb_at ((shift_up 0x0001010100000000 ((side_to_move pos).rel_rank 0) &&&
                    ((find_color pos.board (side_to_move pos) |||
                      find_color pos.board (side_to_move pos).opponent) &&&
                      bb_not (bb_one king_pos)))) mov.to_squ = false := by
                  rw [hnone, bb_at_zero]
                rw [bb_at_land, bb_at_land, bb_at_lor, bb_at_not _ _ ht64, bb_at_one,
                  harea, ha] at hb0
                simp only [Bool.true_and, Bool.true_or, Bool.true_and] at hb0
                have hkp : king_pos = mov.to_squ := by
                  by_cases hkd : king_pos = mov.to_squ
                  · exact hkd
                  · rw [decide_eq_false hkd] at hb0
                    simp at hb0
                rw [hkp, hdest] at hfile
                revert hfile
                cases side_to_move pos <;> decide
              · exact absurd hk2 (List.not_mem_nil mov)
        · rw [if_neg hunm] at hcastle
          exact absurd hcastle (List.not_mem_nil mov)

/-- C4 counterexample: from a crafted but accepted FEN whose en-passant
target square holds a piece of the side to move, `gen_legal` contains a move
(the en-passant "capture" e2xd3) whose destination square is occupied by a
piece of the moving side. -/
theorem c4_own_capture_possible :
    from_fen "k7/8/8/8/8/3N4/4P3/K7 w - d3 0 1".toList = some pos_ep_own
    ∧ (gen_legal pos_ep_own).any
        (fun m => bb_at (find_color pos_ep_own.board (side_to_move pos_ep_own)) m.to_squ)
        = true := by
  decide

/-- C4 as amended: in every position whose two occupancy sets are disjoint,
whose en-passant target (when set) holds no piece of the side to move, and
whose unmoved king (if any) stands on the e-file -- invariants of every
position reachable from the initial position -- every move returned by
`gen_legal` leaves the mover's king out of check after `apply_move`, and no
returned move lands on a square occupied by the mover's own piece. -/
theorem c4_gen_legal_safe (pos : Position)
    (hdisj : find_color pos.board (side_to_move pos) &&&
      find_color pos.board (side_to_move pos).opponent = 0)
    (hep : ∀ squ, pos.en_passant_target = some squ →
      bb_at (find_color pos.board (side_to_move pos)) squ = false)
    (hking : ∀ k, find_king pos (side_to_move pos) = some k →
      bb_at pos.unmoved k = true → sq_file k = 4) :
    ∀ mov ∈ gen_legal pos,
      is_in_check (apply_move pos mov) (side_to_move pos) = false
      ∧ bb_at (find_color pos.board (side_to_move pos)) mov.to_squ = false := by
  intro mov hmem
  have hsub : mov ∈ gen_pseudolegal pos
      ∧ is_in_check (apply_move pos mov) (side_to_move pos) = false := by
    rw [gen_legal] at hmem
    by_cases hh : 75 ≤ pos.half_move_clock
    · rw [if_pos hh] at hmem
      exact absurd hmem (List.not_mem_nil mov)
    · rw [if_neg hh] at hmem
      have h2 := List.mem_filter.mp hmem
      exact ⟨h2.1, by simpa using h2.2⟩
  exact ⟨hsub.2, gen_pseudolegal_no_own_capture pos hdisj hep hking mov hsub.1⟩

/-- C4 witness: in the king-versus-king position (which satisfies the three
invariants), the legal move a1a2 leaves White out of check and does not land
on a white piece. -/
theorem c4_gen_legal_safe_witness :
    is_in_check (apply_move pos_kings ⟨.king, square_at 0 0, square_at 0 1, .none⟩)
        (side_to_move pos_kings) = false
    ∧ bb_at (find_color pos_kings.board (side_to_move pos_kings)) (square_at 0 1) = false := by
  have h := c4_gen_legal_safe pos_kings (by decide)
    (fun squ hsq => by
      rw [(by decide : pos_kings.en_passant_target = (Option.none : Option Nat))] at hsq
      exact Option.noConfusion hsq)
    (fun k hk hu => by
      rw [(by decide : pos_kings.unmoved = 0), bb_at_zero] at hu
      exact Bool.noConfusion hu)
    ⟨.king, square_at 0 0, square_at 0 1, .none⟩ (by decide)
  exact h

/-! ## Claim C5 -/

/-- The numeric value read off by `parse_u`. -/
def digits_val (cs : List Char) : Nat :=
  cs.foldl (fun a c => a * 10 + (c.toNat - 48)) 0

theorem digits_val_append (xs ys : List Char) :
    digits_val (xs ++ ys) = ys.foldl (fun a c => a * 10 + (c.toNat - 48)) (digits_val xs) := by
  rw [digits_val, List.foldl_append]
  rfl

theorem nat_digits_aux_append (fuel : Nat) : ∀ (n : Nat) (acc : List Char),
    nat_digits_aux fuel n acc = nat_digits_aux fuel n [] ++ acc := by
  induction fuel with
  | zero => intro n acc; rfl
  | succ fuel ih =>
    intro n acc
    rw [nat_digits_aux, nat_digits_aux]
    by_cases h : n < 10
    · rw [if_pos h, if_pos h]
      rfl
    · rw [if_neg h, if_neg h, ih (n / 10) (Char.ofNat (48 + n % 10) :: acc),
        ih (n / 10) [Char.ofNat (48 + n % 10)], List.append_assoc]
      rfl

/-- Facts about a single decimal digit character. -/
theorem digit_char_facts (d : Nat) (hd : d < 10) :
    ('0' ≤ Char.ofNat (48 + d) ∧ Char.ofNat (48 + d) ≤ '9')
    ∧ (Char.ofNat (48 + d)).toNat = 48 + d
    ∧ Char.ofNat (48 + d) ≠ '+' ∧ Char.ofNat (48 + d) ≠ ' '
    ∧ Char.ofNat (48 + d) ≠ '/' := by
  interval_cases d <;> exact ⟨⟨by decide, by decide⟩, by decide, by decide, by decide, by decide⟩

/-- Each digit character produced by `nat_digits_aux` is one of 0-9. -/
theorem nat_digits_aux_digits (fuel : Nat) : ∀ (n : Nat),
    ∀ c ∈ nat_digits_aux fuel n [], '0' ≤ c ∧ c ≤ '9' := by
  induction fuel with
  | zero =>
    intro n c hc
    rw [nat_digits_aux] at hc
    simp only [List.mem_singleton] at hc
    subst hc
    exact (digit_char_facts (n % 10) (Nat.mod_lt n (by norm_num))).1
  | succ fuel ih =>
    intro n c hc
    rw [nat_digits_aux] at hc
    by_cases h : n < 10
    · rw [if_pos h] at hc
      simp only [List.mem_singleton] at hc
      subst hc
      exact (digit_char_facts n h).1
    · rw [if_neg h, nat_digits_aux_append] at hc
      rcases List.mem_append.mp hc with hc | hc
      · exact ih (n / 10) c hc
      · simp only [List.mem_singleton] at hc
        subst hc
        exact (digit_char_facts (n % 10) (Nat.mod_lt n (by omega))).1

theorem nat_digits_digits (n : Nat) : ∀ c ∈ nat_digits n, '0' ≤ c ∧ c ≤ '9' :=
  nat_digits_aux_digits n n

theorem nat_digits_aux_ne_nil (fuel n : Nat) : nat_digits_aux fuel n [] ≠ [] := by
  cases fuel with
  | zero => rw [nat_digits_aux]; exact List.cons_ne_nil _ _
  | succ fuel =>
    rw [nat_digits_aux]
    by_cases h : n < 10
    · rw [if_pos h]; exact List.cons_ne_nil _ _
    · rw [if_neg h, nat_digits_aux_append]
      intro habs
      exact List.cons_ne_nil _ _ (List.append_eq_nil.mp habs).2

theorem nat_digits_ne_nil (n : Nat) : nat_digits n ≠ [] := nat_digits_aux_ne_nil n n

theorem nat_digits_aux_val : ∀ (fuel n : Nat), n ≤ fuel →
    digits_val (nat_digits_aux fuel n []) = n := by
  intro fuel
  induction fuel with
  | zero =>
    intro n hn
    obtain rfl : n = 0 := Nat.le_zero.mp hn
    rw [nat_digits_aux, digits_val]
    simp only [List.foldl_cons, List.foldl_nil]
    rw [(digit_char_facts (0 % 10) (by norm_num)).2.1]
  | succ fuel ih =>
    intro n hn
    rw [nat_digits_aux]
    by_cases h : n < 10
    · rw [if_pos h, digits_val]
      simp only [List.foldl_cons, List.foldl_nil]
      rw [(digit_char_facts n h).2.1]
      omega
    · rw [if_neg h, nat_digits_aux_append, digits_val_append]
      simp only [List.foldl_cons, List.foldl_nil]
      rw [show digits_val (nat_digits_aux fuel (n / 10) []) = n / 10 from
        ih (n / 10) (by omega)]
      rw [(digit_char_facts (n % 10) (by omega)).2.1]
      omega

theorem nat_digits_val (n : Nat) : digits_val (nat_digits n) = n :=
  nat_digits_aux_val n n le_rfl

/-- Reading back a printed number: `parse_u` is a left inverse of
`nat_digits` below the bound. -/
theorem parse_u_nat_digits (maxv n : Nat) (hn : n ≤ maxv) :
    parse_u maxv (nat_digits n) = some n := by
  have hne := nat_digits_ne_nil n
  have hdig := nat_digits_digits n
  have hall : ((nat_digits n).all fun c => decide ('0' ≤ c ∧ c ≤ '9')) = true := by
    rw [List.all_eq_true]
    intro c hc
    exact decide_eq_true (hdig c hc)
  rw [parse_u]
  · rw [if_neg hne, if_pos hall]
    show (if digits_val (nat_digits n) ≤ maxv then some (digits_val (nat_digits n))
      else Option.none) = some n
    rw [nat_digits_val n, if_pos hn]
  · intro rest heq
    have h0 := hdig '+' (by rw [heq]; exact List.mem_cons_self _ _)
    exact absurd h0 (by decide)

theorem split_on_ne_nil (sep : Char) (l : List Char) : split_on sep l ≠ [] := by
  cases l with
  | nil => exact List.cons_ne_nil _ _
  | cons c rest =>
    rw [split_on]
    cases split_on sep rest with
    | nil => exact List.cons_ne_nil _ _
    | cons g gs =>
      show (if c = sep then [] :: g :: gs else (c :: g) :: gs) ≠ []
      by_cases h : c = sep
      · rw [if_pos h]; exact List.cons_ne_nil _ _
      · rw [if_neg h]; exact List.cons_ne_nil _ _

/-- `split_on` recovers the chunks of a separated concatenation. -/
theorem split_on_append (sep : Char) (a rest : List Char) (ha : sep ∉ a) :
    split_on sep (a ++ sep :: rest) = a :: split_on sep rest := by
  induction a with
  | nil =>
    rw [List.nil_append, split_on]
    cases h : split_on sep rest with
    | nil => exact absurd h (split_on_ne_nil sep rest)
    | cons g gs =>
      show (if sep = sep then [] :: g :: gs else (sep :: g) :: gs) = [] :: g :: gs
      rw [if_pos rfl]
  | cons c a ih =>
    have hc : c ≠ sep := fun h => ha (h ▸ List.mem_cons_self c a)
    have ha2 : sep ∉ a := fun h => ha (List.mem_cons_of_mem c h)
    rw [List.cons_append, split_on, ih ha2]
    show (if c = sep then [] :: a :: split_on sep rest else (c :: a) :: split_on sep rest)
      = (c :: a) :: split_on sep rest
    rw [if_neg hc]

theorem split_on_no_sep (sep : Char) (a : List Char) (ha : sep ∉ a) :
    split_on sep a = [a] := by
  induction a with
  | nil => rfl
  | cons c a ih =>
    have hc : c ≠ sep := fun h => ha (h ▸ List.mem_cons_self c a)
    have ha2 : sep ∉ a := fun h => ha (List.mem_cons_of_mem c h)
    rw [split_on, ih ha2]
    show (if c = sep then [] :: [a] else [c :: a]) = [c :: a]
    rw [if_neg hc]

/-- C5 counterexample: the well-formed FEN with full-move number 40000 is
accepted, but the `u16` ply computation wraps, and the emitted full-move
field reads 7232: the full-move-number field is not reproduced
equivalently. -/
theorem c5_move_number_not_reproduced :
    from_fen "8/8/8/8/8/8/8/8 w - - 0 40000".toList = some pos_mn40000
    ∧ (split_on ' ' "8/8/8/8/8/8/8/8 w - - 0 40000".toList).getD 5 [] = "40000".toList
    ∧ (split_on ' ' (to_fen pos_mn40000)).getD 5 [] = "7232".toList
    ∧ parse_u 65535 "7232".toList ≠ parse_u 65535 "40000".toList := by
  refine ⟨by decide, by decide, by decide, by decide⟩

/-- A board piece map validity predicate established by `Board::from_fen`:
twelve bitboards, all bits on real squares, and at most one piece per
square. -/
def BoardGood (b : Board) : Prop :=
  b.bbs.length = 12
  ∧ (∀ (pc : Piece) (s : Nat), bb_at (find_piece b pc) s = true → s < 64)
  ∧ (∀ (s : Nat) (p q : Piece), bb_at (find_piece b p) s = true →
      bb_at (find_piece b q) s = true → p = q)

/-- The board accumulated by re-parsing one encoded rank: each file holding
a piece contributes one `add`. -/
def add_pieces (b : Board) (r : Nat) (fs : List Nat) (acc : Board) : Board :=
  fs.foldl (fun a f =>
    match piece_at b (square_at f r) with
    | some pc => a.add (square_at f r) pc
    | Option.none => a) acc

theorem piece_ordinal_lt (p : Piece) : p.ordinal < 12 := by
  cases p with
  | mk c t => cases c <;> cases t <;> decide

theorem piece_ordinal_inj (p q : Piece) (h : p.ordinal = q.ordinal) : p = q := by
  cases p with
  | mk c t =>
    cases q with
    | mk c2 t2 =>
      revert h
      cases c <;> cases c2 <;> cases t <;> cases t2 <;> decide

theorem mem_piece_list (p : Piece) : p ∈ piece_list := by
  cases p with
  | mk c t => cases c <;> cases t <;> decide

theorem piece_char_facts (pc : Piece) :
    piece_from_fen (piece_to_fen pc) = some pc
    ∧ ¬ ('1' ≤ piece_to_fen pc ∧ piece_to_fen pc ≤ '8')
    ∧ (piece_to_fen pc).toNat ≤ 127
    ∧ piece_to_fen pc ≠ ' ' ∧ piece_to_fen pc ≠ '/' := by
  cases pc with
  | mk c t => cases c <;> cases t <;>
      exact ⟨rfl, by decide, by decide, by decide, by decide⟩

theorem blank_digit_facts (k : Nat) (h1 : 1 ≤ k) (h2 : k ≤ 8) :
    ('1' ≤ Char.ofNat (48 + k) ∧ Char.ofNat (48 + k) ≤ '8')
    ∧ (Char.ofNat (48 + k)).toNat = 48 + k
    ∧ Char.ofNat (48 + k) ≠ ' ' ∧ Char.ofNat (48 + k) ≠ '/' := by
  interval_cases k <;> exact ⟨⟨by decide, by decide⟩, by decide, by decide, by decide⟩

theorem board_add_length (b : Board) (squ : Nat) (p : Piece) :
    (b.add squ p).bbs.length = b.bbs.length := by
  rw [Board.add]
  exact List.length_set b.bbs p.ordinal _

theorem find_piece_add (b : Board) (h12 : b.bbs.length = 12) (squ : Nat) (p q : Piece) :
    find_piece (b.add squ p) q =
      if p = q then find_piece b p ||| bb_one squ else find_piece b q := by
  by_cases hpq : p = q
  · subst hpq
    rw [if_pos rfl]
    show (b.bbs.set p.ordinal (find_piece b p ||| bb_one squ)).getD p.ordinal 0 = _
    rw [List.getD_eq_getElem?_getD,
      List.getElem?_set_eq_of_lt _ (by rw [h12]; exact piece_ordinal_lt p)]
    rfl
  · rw [if_neg hpq]
    show (b.bbs.set p.ordinal (find_piece b p ||| bb_one squ)).getD q.ordinal 0
      = b.bbs.getD q.ordinal 0
    rw [List.getD_eq_getElem?_getD, List.getD_eq_getElem?_getD,
      List.getElem?_set_ne (fun h => hpq (piece_ordinal_inj p q h))]

theorem find_piece_empty (p : Piece) : find_piece Board.empty p = 0 := by
  cases p with
  | mk c t => cases c <;> cases t <;> rfl

theorem square_at_lt (f r : Nat) (hf : f < 8) (hr : r < 8) : square_at f r < 64 := by
  rw [square_at_eq f r hr]
  omega

theorem sq_file_square_at (f r : Nat) (hr : r < 8) : sq_file (square_at f r) = f := by
  rw [square_at_eq f r hr, sq_file, Nat.shiftRight_eq_div_pow]
  omega

theorem sq_rank_square_at (f r : Nat) (hr : r < 8) : sq_rank (square_at f r) = r := by
  rw [square_at_eq f r hr, sq_rank, Nat.and_pow_two_sub_one_eq_mod (8 * f + r) 3]
  omega

theorem square_at_recompose (s : Nat) :
    square_at (sq_file s) (sq_rank s) = s := by
  have hr : sq_rank s < 8 := sq_rank_lt s
  rw [square_at_eq _ _ hr, sq_file, Nat.shiftRight_eq_div_pow, sq_rank,
    Nat.and_pow_two_sub_one_eq_mod s 3]
  omega

theorem encode_rank_chars (b : Board) (r : Nat) : ∀ (fs : List Nat) (k : Nat),
    k + fs.length ≤ 8 → ∀ c ∈ encode_rank_files b r fs k, c ≠ '/' ∧ c ≠ ' ' := by
  intro fs
  induction fs with
  | nil =>
    intro k hk c hc
    rw [encode_rank_files] at hc
    by_cases hknz : k ≠ 0
    · rw [if_pos hknz] at hc
      simp only [List.mem_singleton] at hc
      subst hc
      have hfacts := blank_digit_facts k (by omega) (by simpa using hk)
      exact ⟨hfacts.2.2.2, hfacts.2.2.1⟩
    · rw [if_neg hknz] at hc
      exact absurd hc (List.not_mem_nil c)
  | cons f fs ih =>
    intro k hk c hc
    rw [encode_rank_files] at hc
    cases hpa : piece_at b (square_at f r) with
    | some pc =>
      simp only [hpa] at hc
      rcases List.mem_append.mp hc with hc | hc
      · by_cases hknz : k ≠ 0
        · rw [if_pos hknz] at hc
          simp only [List.mem_singleton] at hc
          subst hc
          have hfacts := blank_digit_facts k (by omega) (by simp at hk; omega)
          exact ⟨hfacts.2.2.2, hfacts.2.2.1⟩
        · rw [if_neg hknz] at hc
          exact absurd hc (List.not_mem_nil c)
      · rcases List.mem_cons.mp hc with rfl | hc
        · have hpf := piece_char_facts pc
          exact ⟨hpf.2.2.2.2, hpf.2.2.2.1⟩
        · exact ih 0 (by simp at hk ⊢; omega) c hc
    | none =>
      simp only [hpa] at hc
      exact ih (k + 1) (by simp at hk ⊢; omega) c hc

/-- Re-parsing one encoded rank adds back exactly the pieces of that rank. -/
theorem parse_encode_rank (b : Board) (r : Nat) :
    ∀ (len f0 k : Nat) (acc : Board), f0 + len = 8 → k ≤ f0 →
      parse_rank_field (encode_rank_files b r (List.range' f0 len) k) r (f0 - k) acc
        = some (add_pieces b r (List.range' f0 len) acc) := by
  intro len
  induction len with
  | zero =>
    intro f0 k acc hsum hk
    obtain rfl : f0 = 8 := by omega
    rw [show List.range' 8 0 = [] from rfl]
    rw [encode_rank_files, add_pieces]
    simp only [List.foldl_nil]
    by_cases hknz : k ≠ 0
    · rw [if_pos hknz]
      have hfacts := blank_digit_facts k (by omega) hk
      rw [parse_rank_field,
        if_neg (by push_neg; exact ⟨by omega, by rw [hfacts.2.1]; omega⟩),
        if_pos hfacts.1, hfacts.2.1]
      have h8 : 8 - k + (48 + k - 48) = 8 := by omega
      rw [h8, parse_rank_field, if_pos rfl]
    · rw [if_neg hknz]
      obtain rfl : k = 0 := by omega
      rw [parse_rank_field, if_pos (by omega)]
  | succ len ih =>
    intro f0 k acc hsum hk
    have hf08 : f0 < 8 := by omega
    rw [show List.range' f0 (len + 1) = f0 :: List.range' (f0 + 1) len from by
      rw [List.range'_succ]]
    rw [encode_rank_files, add_pieces]
    simp only [List.foldl_cons]
    cases hpa : piece_at b (square_at f0 r) with
    | some pc =>
      simp only [hpa]
      have hpf := piece_char_facts pc
      by_cases hknz : k ≠ 0
      · rw [if_pos hknz, List.singleton_append]
        have hfacts := blank_digit_facts k (by omega) (by omega)
        rw [parse_rank_field,
          if_neg (by push_neg; exact ⟨by omega, by rw [hfacts.2.1]; omega⟩),
          if_pos hfacts.1, hfacts.2.1]
        have hfile : f0 - k + (48 + k - 48) = f0 := by omega
        rw [hfile, parse_rank_field,
          if_neg (by push_neg; exact ⟨by omega, hpf.2.2.1⟩),
          if_neg hpf.2.1]
        simp only [hpf.1]
        have hrec := ih (f0 + 1) 0 (acc.add (square_at f0 r) pc) (by omega) (by omega)
        rw [Nat.sub_zero] at hrec
        rw [show add_pieces b r (List.range' (f0 + 1) len) (acc.add (square_at f0 r) pc)
            = List.foldl (fun a f =>
                match piece_at b (square_at f r) with
                | some pc => a.add (square_at f r) pc
                | Option.none => a) (acc.add (square_at f0 r) pc)
              (List.range' (f0 + 1) len) from rfl] at hrec
        exact hrec
      · rw [if_neg hknz, List.nil_append]
        obtain rfl : k = 0 := by omega
        rw [Nat.sub_zero, parse_rank_field,
          if_neg (by push_neg; exact ⟨by omega, hpf.2.2.1⟩),
          if_neg hpf.2.1]
        simp only [hpf.1]
        have hrec := ih (f0 + 1) 0 (acc.add (square_at f0 r) pc) (by omega) (by omega)
        rw [Nat.sub_zero] at hrec
        rw [show add_pieces b r (List.range' (f0 + 1) len) (acc.add (square_at f0 r) pc)
            = List.foldl (fun a f =>
                match piece_at b (square_at f r) with
                | some pc => a.add (square_at f r) pc
                | Option.none => a) (acc.add (square_at f0 r) pc)
              (List.range' (f0 + 1) len) from rfl] at hrec
        exact hrec
    | none =>
      simp only [hpa]
      have hrec := ih (f0 + 1) (k + 1) acc (by omega) (by omega)
      have heq : f0 + 1 - (k + 1) = f0 - k := by omega
      rw [heq] at hrec
      rw [show add_pieces b r (List.range' (f0 + 1) len) acc
          = List.foldl (fun a f =>
              match piece_at b (square_at f r) with
              | some pc => a.add (square_at f r) pc
              | Option.none => a) acc (List.range' (f0 + 1) len) from rfl] at hrec
      exact hrec

theorem getLast?_mem : ∀ (l : List Piece) (a : Piece), l.getLast? = some a → a ∈ l := by
  intro l
  induction l with
  | nil => intro a h; exact absurd h (by simp)
  | cons c rest ih =>
    intro a h
    cases rest with
    | nil => simp at h; subst h; exact List.mem_cons_self _ _
    | cons d tl =>
      rw [List.getLast?_cons_cons] at h
      exact List.mem_cons_of_mem c (ih a h)

theorem getLast?_isSome : ∀ (l : List Piece), l ≠ [] → ∃ a, l.getLast? = some a := by
  intro l
  induction l with
  | nil => intro h; exact absurd rfl h
  | cons c rest ih =>
    intro _
    cases rest with
    | nil => exact ⟨c, by simp⟩
    | cons d tl =>
      obtain ⟨a, ha⟩ := ih (by simp)
      exact ⟨a, by rw [List.getLast?_cons_cons]; exact ha⟩

/-- A square's dense-map piece always has the square set in its bitboard. -/
theorem piece_at_eq_some (b : Board) (s : Nat) (pc : Piece)
    (h : piece_at b s = some pc) : bb_at (find_piece b pc) s = true := by
  have hmem := getLast?_mem _ pc h
  exact (List.mem_filter.mp hmem).2

/-- On a board with at most one piece per square, a set bitboard bit is
reflected in the dense map. -/
theorem piece_at_of_bb (b : Board)
    (huniq : ∀ (s : Nat) (p q : Piece), bb_at (find_piece b p) s = true →
      bb_at (find_piece b q) s = true → p = q)
    (s : Nat) (pc : Piece) (h : bb_at (find_piece b pc) s = true) :
    piece_at b s = some pc := by
  have hmem : pc ∈ piece_list.filter (fun p => bb_at (find_piece b p) s) :=
    List.mem_filter.mpr ⟨mem_piece_list pc, h⟩
  obtain ⟨a, ha⟩ := getLast?_isSome _ (List.ne_nil_of_mem hmem)
  have hamem := getLast?_mem _ a ha
  have hq : bb_at (find_piece b a) s = true := (List.mem_filter.mp hamem).2
  rw [piece_at, ha, huniq s a pc hq h]

theorem find_piece_add_at (b : Board) (h12 : b.bbs.length = 12) (squ : Nat)
    (p q : Piece) (s : Nat) :
    bb_at (find_piece (b.add squ p) q) s
      = (bb_at (find_piece b q) s || (decide (p = q) && decide (squ = s))) := by
  rw [find_piece_add b h12]
  by_cases hpq : p = q
  · subst hpq
    rw [if_pos rfl, bb_at_lor, bb_at_one]
    simp
  · rw [if_neg hpq]
    simp [hpq]

/-- Bit-level description of the board accumulated by `add_pieces`. -/
theorem add_pieces_spec (b : Board) (r : Nat) :
    ∀ (fs : List Nat) (acc : Board), acc.bbs.length = 12 →
      (add_pieces b r fs acc).bbs.length = 12
      ∧ ∀ (pc : Piece) (s : Nat),
          (bb_at (find_piece (add_pieces b r fs acc) pc) s = true ↔
            (bb_at (find_piece acc pc) s = true
             ∨ ∃ f ∈ fs, s = square_at f r ∧ piece_at b s = some pc)) := by
  intro fs
  induction fs with
  | nil =>
    intro acc h12
    refine ⟨h12, fun pc s => ?_⟩
    rw [add_pieces]
    simp
  | cons f fs ih =>
    intro acc h12
    cases hpa : piece_at b (square_at f r) with
    | none =>
      have hstep : add_pieces b r (f :: fs) acc = add_pieces b r fs acc := by
        simp only [add_pieces, List.foldl_cons, hpa]
      obtain ⟨hlen, hiff⟩ := ih acc h12
      rw [hstep]
      refine ⟨hlen, fun pc s => ?_⟩
      rw [hiff pc s]
      constructor
      · rintro (h | ⟨g, hg, hs, hpc⟩)
        · exact Or.inl h
        · exact Or.inr ⟨g, List.mem_cons_of_mem f hg, hs, hpc⟩
      · rintro (h | ⟨g, hg, hs, hpc⟩)
        · exact Or.inl h
        · rcases List.mem_cons.mp hg with rfl | hg2
          · rw [hs, hpa] at hpc
            exact absurd hpc (by simp)
          · exact Or.inr ⟨g, hg2, hs, hpc⟩
    | some pc0 =>
      have hstep : add_pieces b r (f :: fs) acc
          = add_pieces b r fs (acc.add (square_at f r) pc0) := by
        simp only [add_pieces, List.foldl_cons, hpa]
      have h12b : (acc.add (square_at f r) pc0).bbs.length = 12 := by
        rw [board_add_length]; exact h12
      obtain ⟨hlen, hiff⟩ := ih (acc.add (square_at f r) pc0) h12b
      rw [hstep]
      refine ⟨hlen, fun pc s => ?_⟩
      rw [hiff pc s, find_piece_add_at acc h12 (square_at f r) pc0 pc s]
      simp only [Bool.or_eq_true, Bool.and_eq_true, decide_eq_true_eq]
      constructor
      · rintro ((h | ⟨rfl, rfl⟩) | ⟨g, hg, hs, hpc⟩)
        · exact Or.inl h
        · exact Or.inr ⟨f, List.mem_cons_self f fs, rfl, hpa⟩
        · exact Or.inr ⟨g, List.mem_cons_of_mem f hg, hs, hpc⟩
      · rintro (h | ⟨g, hg, hs, hpc⟩)
        · exact Or.inl (Or.inl h)
        · rcases List.mem_cons.mp hg with rfl | hg2
          · rw [hs, hpa] at hpc
            obtain rfl : pc0 = pc := Option.some.inj hpc
            exact Or.inl (Or.inr ⟨rfl, hs.symm⟩)
          · exact Or.inr ⟨g, hg2, hs, hpc⟩

/-- The board rebuilt by re-parsing all eight encoded ranks of `b`. -/
def reassemble (b : Board) : Board :=
  [7, 6, 5, 4, 3, 2, 1, 0].foldl
    (fun acc r => add_pieces b r (List.range' 0 8) acc) Board.empty

theorem fold_ranks_spec (b : Board) : ∀ (rs : List Nat) (acc : Board),
    acc.bbs.length = 12 →
    (rs.foldl (fun acc r => add_pieces b r (List.range' 0 8) acc) acc).bbs.length = 12
    ∧ ∀ (pc : Piece) (s : Nat),
        (bb_at (find_piece
            (rs.foldl (fun acc r => add_pieces b r (List.range' 0 8) acc) acc) pc) s = true
          ↔ (bb_at (find_piece acc pc) s = true
             ∨ ∃ r ∈ rs, ∃ f ∈ List.range' 0 8,
                 s = square_at f r ∧ piece_at b s = some pc)) := by
  intro rs
  induction rs with
  | nil =>
    intro acc h12
    refine ⟨h12, fun pc s => ?_⟩
    simp
  | cons r rs ih =>
    intro acc h12
    rw [List.foldl_cons]
    obtain ⟨hlen1, hiff1⟩ := add_pieces_spec b r (List.range' 0 8) acc h12
    obtain ⟨hlen, hiff⟩ := ih (add_pieces b r (List.range' 0 8) acc) hlen1
    refine ⟨hlen, fun pc s => ?_⟩
    rw [hiff pc s, hiff1 pc s]
    constructor
    · rintro ((h | ⟨f, hf, hs, hpc⟩) | ⟨r2, hr2, f, hf, hs, hpc⟩)
      · exact Or.inl h
      · exact Or.inr ⟨r, List.mem_cons_self r rs, f, hf, hs, hpc⟩
      · exact Or.inr ⟨r2, List.mem_cons_of_mem r hr2, f, hf, hs, hpc⟩
    · rintro (h | ⟨r2, hr2, f, hf, hs, hpc⟩)
      · exact Or.inl (Or.inl h)
      · rcases List.mem_cons.mp hr2 with rfl | hr2b
        · exact Or.inl (Or.inr ⟨f, hf, hs, hpc⟩)
        · exact Or.inr ⟨r2, hr2b, f, hf, hs, hpc⟩

/-- The rebuilt board holds a piece's bit exactly where the dense map of the
original board holds that piece. -/
theorem reassemble_spec (b : Board) :
    (reassemble b).bbs.length = 12
    ∧ ∀ (pc : Piece) (s : Nat),
        (bb_at (find_piece (reassemble b) pc) s = true ↔
          (s < 64 ∧ piece_at b s = some pc)) := by
  obtain ⟨hlen, hiff⟩ := fold_ranks_spec b [7, 6, 5, 4, 3, 2, 1, 0] Board.empty (by decide)
  refine ⟨hlen, fun pc s => ?_⟩
  rw [show find_piece (reassemble b) pc = find_piece
    ([7, 6, 5, 4, 3, 2, 1, 0].foldl
      (fun acc r => add_pieces b r (List.range' 0 8) acc) Board.empty) pc from rfl]
  rw [hiff pc s, find_piece_empty, bb_at_zero]
  constructor
  · rintro (h | ⟨r, hr, f, hf, hs, hpc⟩)
    · exact absurd h (by simp)
    · have hr8 : r < 8 := by simp at hr; omega
      have hf8 : f < 8 := by
        have := List.mem_range'_1.mp hf
        omega
      exact ⟨hs ▸ square_at_lt f r hf8 hr8, hpc⟩
  · rintro ⟨hs64, hpc⟩
    refine Or.inr ⟨sq_rank s, ?_, sq_file s, ?_, (square_at_recompose s).symm, hpc⟩
    · have := sq_rank_lt s
      simp only [List.mem_cons, List.mem_singleton]
      omega
    · refine List.mem_range'_1.mpr ⟨Nat.zero_le _, ?_⟩
      have : sq_file s = s / 8 := by
        rw [sq_file, Nat.shiftRight_eq_div_pow]
      omega

theorem piece_of_ordinal (n : Nat) (hn : n < 12) : ∃ pc : Piece, pc.ordinal = n := by
  interval_cases n
  · exact ⟨⟨.white, .pawn⟩, rfl⟩
  · exact ⟨⟨.white, .knight⟩, rfl⟩
  · exact ⟨⟨.white, .bishop⟩, rfl⟩
  · exact ⟨⟨.white, .rook⟩, rfl⟩
  · exact ⟨⟨.white, .queen⟩, rfl⟩
  · exact ⟨⟨.white, .king⟩, rfl⟩
  · exact ⟨⟨.black, .pawn⟩, rfl⟩
  · exact ⟨⟨.black, .knight⟩, rfl⟩
  · exact ⟨⟨.black, .bishop⟩, rfl⟩
  · exact ⟨⟨.black, .rook⟩, rfl⟩
  · exact ⟨⟨.black, .queen⟩, rfl⟩
  · exact ⟨⟨.black, .king⟩, rfl⟩

/-- On a valid board the re-parse of the eight encoded ranks reproduces the
board exactly. -/
theorem reassemble_eq (b : Board) (hg : BoardGood b) : reassemble b = b := by
  obtain ⟨hlen, hiff⟩ := reassemble_spec b
  obtain ⟨h12, hbound, huniq⟩ := hg
  have hfp : ∀ pc : Piece, find_piece (reassemble b) pc = find_piece b pc := by
    intro pc
    apply Nat.eq_of_testBit_eq
    intro i
    show bb_at (find_piece (reassemble b) pc) i = bb_at (find_piece b pc) i
    by_cases hb : bb_at (find_piece b pc) i = true
    · rw [hb]
      exact (hiff pc i).mpr ⟨hbound pc i hb, piece_at_of_bb b huniq i pc hb⟩
    · rw [Bool.eq_false_iff.mpr hb, Bool.eq_false_iff]
      intro hx
      exact hb (piece_at_eq_some b i pc ((hiff pc i).mp hx).2)
  have hget : ∀ (l : List Nat) (n : Nat), l.length = 12 → n < 12 →
      l[n]? = some (l.getD n 0) := by
    intro l n hl hn
    rw [List.getD_eq_getElem?_getD, List.getElem?_eq_getElem (by omega)]
    rfl
  have hbbs : (reassemble b).bbs = b.bbs := by
    apply List.ext_get?
    intro n
    by_cases hn : n < 12
    · obtain ⟨pc, hpc⟩ := piece_of_ordinal n hn
      have hv := hfp pc
      rw [find_piece, find_piece, hpc] at hv
      rw [List.get?_eq_getElem?, List.get?_eq_getElem?,
        hget _ n hlen hn, hget _ n h12 hn, hv]
    · rw [List.get?_eq_none.mpr (by omega), List.get?_eq_none.mpr (by omega)]
  exact congrArg Board.mk hbbs

/-- `Board::from_fen ∘ Board::to_fen` recovers the rebuilt board. -/
theorem board_from_to_fen (b : Board) :
    board_from_fen (board_to_fen b) = some (reassemble b) := by
  have hnosl : ∀ r : Nat, ('/' : Char) ∉ encode_rank_files b r (List.range 8) 0 := by
    intro r h
    exact (encode_rank_chars b r (List.range 8) 0 (by simp) '/' h).1 rfl
  have hsplit : split_on '/' (board_to_fen b)
      = [encode_rank_files b 7 (List.range 8) 0, encode_rank_files b 6 (List.range 8) 0,
         encode_rank_files b 5 (List.range 8) 0, encode_rank_files b 4 (List.range 8) 0,
         encode_rank_files b 3 (List.range 8) 0, encode_rank_files b 2 (List.range 8) 0,
         encode_rank_files b 1 (List.range 8) 0, encode_rank_files b 0 (List.range 8) 0] := by
    rw [board_to_fen]
    rw [show board_to_fen_ranks b [7, 6, 5, 4, 3, 2, 1, 0]
        = encode_rank_files b 7 (List.range 8) 0 ++ '/' ::
          (encode_rank_files b 6 (List.range 8) 0 ++ '/' ::
          (encode_rank_files b 5 (List.range 8) 0 ++ '/' ::
          (encode_rank_files b 4 (List.range 8) 0 ++ '/' ::
          (encode_rank_files b 3 (List.range 8) 0 ++ '/' ::
          (encode_rank_files b 2 (List.range 8) 0 ++ '/' ::
          (encode_rank_files b 1 (List.range 8) 0 ++ '/' ::
          encode_rank_files b 0 (List.range 8) 0)))))) from rfl]
    rw [split_on_append _ _ _ (hnosl 7), split_on_append _ _ _ (hnosl 6),
      split_on_append _ _ _ (hnosl 5), split_on_append _ _ _ (hnosl 4),
      split_on_append _ _ _ (hnosl 3), split_on_append _ _ _ (hnosl 2),
      split_on_append _ _ _ (hnosl 1), split_on_no_sep _ _ (hnosl 0)]
  have hp : ∀ (r : Nat) (acc : Board),
      parse_rank_field (encode_rank_files b r (List.range 8) 0) r 0 acc
        = some (add_pieces b r (List.range' 0 8) acc) := by
    intro r acc
    rw [List.range_eq_range']
    exact parse_encode_rank b r 8 0 0 acc (by omega) (by omega)
  rw [board_from_fen, hsplit]
  simp only [board_from_fen_ranks, hp, Option.some_bind]
  norm_num
  rfl

/-- Adding a piece at a fresh square preserves board validity. -/
theorem board_add_good (acc : Board) (hg : BoardGood acc) (squ : Nat) (hsq : squ < 64)
    (hfresh : ∀ pc : Piece, bb_at (find_piece acc pc) squ = false) (p : Piece) :
    BoardGood (acc.add squ p)
    ∧ ∀ (pc : Piece) (s : Nat), bb_at (find_piece (acc.add squ p) pc) s = true →
        (bb_at (find_piece acc pc) s = true ∨ (pc = p ∧ s = squ)) := by
  obtain ⟨h12, hbound, huniq⟩ := hg
  have hat : ∀ (pc : Piece) (s : Nat), bb_at (find_piece (acc.add squ p) pc) s = true →
      (bb_at (find_piece acc pc) s = true ∨ (pc = p ∧ s = squ)) := by
    intro pc s h
    rw [find_piece_add_at acc h12 squ p pc s] at h
    rcases Bool.or_eq_true_iff.mp h with h | h
    · exact Or.inl h
    · obtain ⟨h1, h2⟩ := Bool.and_eq_true_iff.mp h
      exact Or.inr ⟨(decide_eq_true_eq.mp h1).symm, (decide_eq_true_eq.mp h2).symm⟩
  refine ⟨⟨?_, ?_, ?_⟩, hat⟩
  · rw [board_add_length]; exact h12
  · intro pc s h
    rcases hat pc s h with h | ⟨_, rfl⟩
    · exact hbound pc s h
    · exact hsq
  · intro s q1 q2 h1 h2
    rcases hat q1 s h1 with h1b | ⟨rfl, rfl⟩
    · rcases hat q2 s h2 with h2b | ⟨rfl, rfl⟩
      · exact huniq s q1 q2 h1b h2b
      · exact absurd h1b (by rw [hfresh q1]; simp)
    · rcases hat q2 s h2 with h2b | ⟨rfl, _⟩
      · exact absurd h2b (by rw [hfresh q2]; simp)
      · rfl

/-- `Board::from_fen` rank parsing preserves validity: every placed piece
lands on a fresh square of the rank being parsed. -/
theorem parse_rank_field_good (r : Nat) (hr : r < 8) :
    ∀ (cs : List Char) (file : Nat) (acc b2 : Board),
      BoardGood acc →
      (∀ (pc : Piece) (s : Nat), bb_at (find_piece acc pc) s = true →
        r < sq_rank s ∨ (sq_rank s = r ∧ sq_file s < file)) →
      parse_rank_field cs r file acc = some b2 →
      BoardGood b2 ∧ (∀ (pc : Piece) (s : Nat), bb_at (find_piece b2 pc) s = true →
        r < sq_rank s ∨ sq_rank s = r) := by
  intro cs
  induction cs with
  | nil =>
    intro file acc b2 hg hinv hp
    rw [parse_rank_field] at hp
    by_cases h8 : file = 8
    · rw [if_pos h8] at hp
      obtain rfl : acc = b2 := Option.some.inj hp
      refine ⟨hg, fun pc s h => ?_⟩
      rcases hinv pc s h with h | ⟨h, _⟩
      · exact Or.inl h
      · exact Or.inr h
    · rw [if_neg h8] at hp
      exact absurd hp (by simp)
  | cons c cs ih =>
    intro file acc b2 hg hinv hp
    rw [parse_rank_field] at hp
    by_cases hguard : 8 ≤ file ∨ ¬ c.toNat ≤ 127
    · rw [if_pos hguard] at hp
      exact absurd hp (by simp)
    · rw [if_neg hguard] at hp
      have hfile : file < 8 := by
        rcases Nat.lt_or_ge file 8 with h | h
        · exact h
        · exact absurd (Or.inl h) hguard
      by_cases hdig : '1' ≤ c ∧ c ≤ '8'
      · rw [if_pos hdig] at hp
        refine ih (file + (c.toNat - 48)) acc b2 hg (fun pc s h => ?_) hp
        rcases hinv pc s h with h | ⟨h1, h2⟩
        · exact Or.inl h
        · exact Or.inr ⟨h1, by omega⟩
      · rw [if_neg hdig] at hp
        cases hpf : piece_from_fen c with
        | none =>
          rw [hpf] at hp
          exact absurd hp (by simp)
        | some p =>
          rw [hpf] at hp
          have hfresh : ∀ pc : Piece, bb_at (find_piece acc pc) (square_at file r) = false := by
            intro pc
            rw [Bool.eq_false_iff]
            intro hx
            rcases hinv pc (square_at file r) hx with h | ⟨_, h⟩
            · rw [sq_rank_square_at file r hr] at h
              omega
            · rw [sq_file_square_at file r hr] at h
              omega
          obtain ⟨hg2, hmono⟩ :=
            board_add_good acc hg (square_at file r) (square_at_lt file r hfile hr) hfresh p
          refine ih (file + 1) (acc.add (square_at file r) p) b2 hg2 (fun pc s h => ?_) hp
          rcases hmono pc s h with h | ⟨_, rfl⟩
          · rcases hinv pc s h with h | ⟨h1, h2⟩
            · exact Or.inl h
            · exact Or.inr ⟨h1, by omega⟩
          · exact Or.inr ⟨sq_rank_square_at file r hr, by
              rw [sq_file_square_at file r hr]; omega⟩

/-- The rank loop of `Board::from_fen` preserves validity. -/
theorem board_from_fen_ranks_good :
    ∀ (fields : List (List Char)) (rank : Nat) (acc b2 : Board),
      rank ≤ 8 → BoardGood acc →
      (∀ (pc : Piece) (s : Nat), bb_at (find_piece acc pc) s = true → rank ≤ sq_rank s) →
      board_from_fen_ranks fields rank acc = some b2 → BoardGood b2 := by
  intro fields
  induction fields with
  | nil =>
    intro rank acc b2 _ hg _ hp
    rw [board_from_fen_ranks] at hp
    by_cases h0 : rank = 0
    · rw [if_pos h0] at hp
      obtain rfl : acc = b2 := Option.some.inj hp
      exact hg
    · rw [if_neg h0] at hp
      exact absurd hp (by simp)
  | cons field rest ih =>
    intro rank acc b2 hr8 hg hinv hp
    rw [board_from_fen_ranks] at hp
    by_cases h0 : rank = 0
    · rw [if_pos h0] at hp
      exact absurd hp (by simp)
    · rw [if_neg h0] at hp
      cases hmid : parse_rank_field field (rank - 1) 0 acc with
      | none =>
        rw [hmid] at hp
        exact absurd hp (by simp)
      | some bmid =>
        rw [hmid, Option.some_bind] at hp
        obtain ⟨hgmid, hinvmid⟩ :=
          parse_rank_field_good (rank - 1) (by omega) field 0 acc bmid hg
            (fun pc s h => Or.inl (by have := hinv pc s h; omega)) hmid
        refine ih (rank - 1) bmid b2 (by omega) hgmid (fun pc s h => ?_) hp
        rcases hinvmid pc s h with h | h
        · omega
        · omega

/-- Every board accepted by `Board::from_fen` is valid: twelve bitboards,
bits only on real squares, at most one piece per square. -/
theorem board_from_fen_good (cs : List Char) (b : Board)
    (h : board_from_fen cs = some b) : BoardGood b := by
  rw [board_from_fen] at h
  refine board_from_fen_ranks_good (split_on '/' cs) 8 Board.empty b (by omega) ?_ ?_ h
  · refine ⟨by decide, ?_, ?_⟩
    · intro pc s hx
      rw [find_piece_empty, bb_at_zero] at hx
      exact absurd hx (by simp)
    · intro s p q h1 _
      rw [find_piece_empty, bb_at_zero] at h1
      exact absurd h1 (by simp)
  · intro pc s hx
    rw [find_piece_empty, bb_at_zero] at hx
    exact absurd hx (by simp)

theorem char_le_toNat {a b : Char} (h : a ≤ b) : a.toNat ≤ b.toNat := by
  rw [Char.le_def, UInt32.le_def] at h
  exact h

theorem parse_file_char_inv (a : Char) (f : Nat) (h : parse_file_char a = some f) :
    f = a.toNat - 97 ∧ 97 ≤ a.toNat ∧ a.toNat ≤ 104 := by
  rw [parse_file_char] at h
  by_cases hc : 'a' ≤ a ∧ a ≤ 'h'
  · rw [if_pos hc] at h
    obtain rfl := Option.some.inj h
    exact ⟨rfl, char_le_toNat hc.1, char_le_toNat hc.2⟩
  · rw [if_neg hc] at h
    exact absurd h (by simp)

theorem parse_rank_char_inv (b : Char) (r : Nat) (h : parse_rank_char b = some r) :
    r = b.toNat - 49 ∧ 49 ≤ b.toNat ∧ b.toNat ≤ 56 := by
  rw [parse_rank_char] at h
  by_cases hc : '1' ≤ b ∧ b ≤ '8'
  · rw [if_pos hc] at h
    obtain rfl := Option.some.inj h
    exact ⟨rfl, char_le_toNat hc.1, char_le_toNat hc.2⟩
  · rw [if_neg hc] at h
    exact absurd h (by simp)

theorem square_parse_inv (cs : List Char) (squ : Nat) (h : square_parse cs = some squ) :
    ∃ a b f r, cs = [a, b] ∧ parse_file_char a = some f ∧ parse_rank_char b = some r
      ∧ squ = square_at f r := by
  cases cs with
  | nil =>
    rw [show square_parse [] = Option.none from rfl] at h
    exact absurd h (by simp)
  | cons a tl =>
    cases tl with
    | nil =>
      rw [show square_parse [a] = Option.none from rfl] at h
      exact absurd h (by simp)
    | cons b tl2 =>
      cases tl2 with
      | cons c tl3 =>
        rw [show square_parse (a :: b :: c :: tl3) = Option.none from rfl] at h
        exact absurd h (by simp)
      | nil =>
        rw [show square_parse [a, b] = (parse_file_char a).bind
          (fun f => (parse_rank_char b).map fun r => square_at f r) from rfl] at h
        cases hf : parse_file_char a with
        | none => rw [hf] at h; exact absurd h (by simp)
        | some f =>
          rw [hf, Option.some_bind] at h
          cases hr : parse_rank_char b with
          | none => rw [hr] at h; exact absurd h (by simp)
          | some r =>
            rw [hr, Option.map_some'] at h
            exact ⟨a, b, f, r, rfl, hf, hr, (Option.some.inj h).symm⟩

theorem parse_u_le (maxv : Nat) (cs : List Char) (n : Nat)
    (h : parse_u maxv cs = some n) : n ≤ maxv := by
  simp only [parse_u] at h
  split at h
  · exact absurd h (by simp)
  · split at h
    · split at h
      · rename_i hv
        obtain rfl := Option.some.inj h
        exact hv
      · exact absurd h (by simp)
    · exact absurd h (by simp)

theorem digit_ne_space {c : Char} (h1 : '0' ≤ c) : c ≠ ' ' := by
  intro he
  rw [he] at h1
  exact absurd h1 (by decide)

theorem board_to_fen_ranks_no_space (b : Board) :
    ∀ (rs : List Nat), ∀ c ∈ board_to_fen_ranks b rs, c ≠ ' ' := by
  intro rs
  induction rs with
  | nil => intro c hc; exact absurd hc (List.not_mem_nil c)
  | cons r rest ih =>
    intro c hc
    cases rest with
    | nil =>
      rw [board_to_fen_ranks] at hc
      exact (encode_rank_chars b r (List.range 8) 0 (by simp) c hc).2
    | cons r2 rest2 =>
      rw [board_to_fen_ranks] at hc
      · rcases List.mem_append.mp hc with hc | hc
        · exact (encode_rank_chars b r (List.range 8) 0 (by simp) c hc).2
        · rcases List.mem_cons.mp hc with rfl | hc
          · decide
          · exact ih c hc
      · exact fun h => List.noConfusion h

theorem board_to_fen_no_space (b : Board) : ∀ c ∈ board_to_fen b, c ≠ ' ' :=
  fun c hc => board_to_fen_ranks_no_space b [7, 6, 5, 4, 3, 2, 1, 0] c hc

theorem mem_opt_singleton {c x : Char} {b : Bool} (h : c ∈ if b then [x] else []) :
    c = x := by
  split at h
  · simpa using h
  · exact absurd h (List.not_mem_nil c)

theorem castle_field_chars (pos : Position) :
    ∀ c ∈ castle_field pos, c = '-' ∨ c = 'K' ∨ c = 'Q' ∨ c = 'k' ∨ c = 'q' := by
  intro c hc
  simp only [castle_field] at hc
  split at hc
  · simp only [List.mem_singleton] at hc
    exact Or.inl hc
  · rcases List.mem_append.mp hc with hc | hc
    · rcases List.mem_append.mp hc with hc | hc
      · rcases List.mem_append.mp hc with hc | hc
        · exact Or.inr (Or.inl (mem_opt_singleton hc))
        · exact Or.inr (Or.inr (Or.inl (mem_opt_singleton hc)))
      · exact Or.inr (Or.inr (Or.inr (Or.inl (mem_opt_singleton hc))))
    · exact Or.inr (Or.inr (Or.inr (Or.inr (mem_opt_singleton hc))))

theorem castle_field_flags (pos : Position) :
    ('K' ∈ castle_field pos → bb_at pos.unmoved (square_at 4 0) = true
      ∧ bb_at pos.unmoved (square_at 7 0) = true)
    ∧ ('Q' ∈ castle_field pos → bb_at pos.unmoved (square_at 4 0) = true
      ∧ bb_at pos.unmoved (square_at 0 0) = true)
    ∧ ('k' ∈ castle_field pos → bb_at pos.unmoved (square_at 4 7) = true
      ∧ bb_at pos.unmoved (square_at 7 7) = true)
    ∧ ('q' ∈ castle_field pos → bb_at pos.unmoved (square_at 4 7) = true
      ∧ bb_at pos.unmoved (square_at 0 7) = true) := by
  by_cases h1 : bb_at pos.unmoved (square_at 4 0) = true <;>
  by_cases h2 : bb_at pos.unmoved (square_at 7 0) = true <;>
  by_cases h3 : bb_at pos.unmoved (square_at 0 0) = true <;>
  by_cases h4 : bb_at pos.unmoved (square_at 4 7) = true <;>
  by_cases h5 : bb_at pos.unmoved (square_at 7 7) = true <;>
  by_cases h6 : bb_at pos.unmoved (square_at 0 7) = true <;>
    simp [castle_field, h1, h2, h3, h4, h5, h6]

theorem castle_field_dash (pos : Position)
    (h1 : bb_at pos.unmoved (square_at 4 0) = false)
    (h2 : bb_at pos.unmoved (square_at 4 7) = false) :
    castle_field pos = ['-'] := by
  simp [castle_field, h1, h2]

theorem castle_char_info_inv (c : Char) (ci : Color × Nat × Nat)
    (h : castle_char_info c = some ci) :
    (c = 'K' ∧ ci = (Color.white, 56, 32)) ∨ (c = 'Q' ∧ ci = (Color.white, 0, 32))
    ∨ (c = 'k' ∧ ci = (Color.black, 63, 39)) ∨ (c = 'q' ∧ ci = (Color.black, 7, 39)) := by
  rw [castle_char_info] at h
  by_cases h1 : c = 'K'
  · rw [if_pos h1] at h
    exact Or.inl ⟨h1, by obtain rfl := Option.some.inj h; decide⟩
  · rw [if_neg h1] at h
    by_cases h2 : c = 'Q'
    · rw [if_pos h2] at h
      exact Or.inr (Or.inl ⟨h2, by obtain rfl := Option.some.inj h; decide⟩)
    · rw [if_neg h2] at h
      by_cases h3 : c = 'k'
      · rw [if_pos h3] at h
        exact Or.inr (Or.inr (Or.inl ⟨h3, by obtain rfl := Option.some.inj h; decide⟩))
      · rw [if_neg h3] at h
        by_cases h4 : c = 'q'
        · rw [if_pos h4] at h
          exact Or.inr (Or.inr (Or.inr ⟨h4, by obtain rfl := Option.some.inj h; decide⟩))
        · rw [if_neg h4] at h
          exact absurd h (by simp)

/-- Provenance of `unmoved` bits through the castling-rights loop: every bit
of the output is a bit of the input or a home square of one of the parsed
characters. -/
theorem castle_fold_bits (board : Board) : ∀ (cs : List Char) (u0 u : Nat),
    castle_fold board cs u0 = some u → ∀ s, bb_at u s = true →
      bb_at u0 s = true
      ∨ ∃ c ∈ cs, ∃ ci, castle_char_info c = some ci ∧ (s = ci.2.1 ∨ s = ci.2.2) := by
  intro cs
  induction cs with
  | nil =>
    intro u0 u h s hs
    rw [castle_fold] at h
    obtain rfl := Option.some.inj h
    exact Or.inl hs
  | cons c cs ih =>
    intro u0 u h s hs
    rw [castle_fold] at h
    cases hci : castle_char_info c with
    | none =>
      simp only [hci] at h
      exact absurd h (by simp)
    | some ci =>
      obtain ⟨color, rook_pos, king_pos⟩ := ci
      simp only [hci] at h
      by_cases hcond : (bb_at (find_piece board ⟨color, .rook⟩) rook_pos
          && bb_at (find_piece board ⟨color, .king⟩) king_pos) = true
      · rw [if_pos hcond] at h
        rcases ih _ u h s hs with h2 | ⟨c2, hc2, ci2, hci2, hor⟩
        · rw [bb_at_lor, bb_at_lor] at h2
          rcases Bool.or_eq_true_iff.mp h2 with h3 | h3
          · rcases Bool.or_eq_true_iff.mp h3 with h4 | h4
            · exact Or.inl h4
            · rw [bb_at_one] at h4
              exact Or.inr ⟨c, List.mem_cons_self c cs, (color, rook_pos, king_pos), hci,
                Or.inl (decide_eq_true_eq.mp h4).symm⟩
          · rw [bb_at_one] at h3
            exact Or.inr ⟨c, List.mem_cons_self c cs, (color, rook_pos, king_pos), hci,
              Or.inr (decide_eq_true_eq.mp h3).symm⟩
        · exact Or.inr ⟨c2, List.mem_cons_of_mem c hc2, ci2, hci2, hor⟩
      · rw [if_neg hcond] at h
        exact absurd h (by simp)

/-- The pawn-derived initial `unmoved` mask of `from_fen` never contains a
castling home square (those lie on ranks 0 and 7, the mask on ranks 1 and 6). -/
theorem unmoved0_no_castle_bits (wp bp : Nat) :
    ∀ s, (s = 0 ∨ s = 7 ∨ s = 56 ∨ s = 63 ∨ s = 32 ∨ s = 39) →
    bb_at ((wp &&& bb_rank 1) ||| (bp &&& bb_rank 6)) s = false := by
  intro s hs
  rcases hs with rfl | rfl | rfl | rfl | rfl | rfl
  · rw [bb_at_lor, bb_at_land, bb_at_land,
      show bb_at (bb_rank 1) 0 = false from by decide,
      show bb_at (bb_rank 6) 0 = false from by decide]
    simp
  · rw [bb_at_lor, bb_at_land, bb_at_land,
      show bb_at (bb_rank 1) 7 = false from by decide,
      show bb_at (bb_rank 6) 7 = false from by decide]
    simp
  · rw [bb_at_lor, bb_at_land, bb_at_land,
      show bb_at (bb_rank 1) 56 = false from by decide,
      show bb_at (bb_rank 6) 56 = false from by decide]
    simp
  · rw [bb_at_lor, bb_at_land, bb_at_land,
      show bb_at (bb_rank 1) 63 = false from by decide,
      show bb_at (bb_rank 6) 63 = false from by decide]
    simp
  · rw [bb_at_lor, bb_at_land, bb_at_land,
      show bb_at (bb_rank 1) 32 = false from by decide,
      show bb_at (bb_rank 6) 32 = false from by decide]
    simp
  · rw [bb_at_lor, bb_at_land, bb_at_land,
      show bb_at (bb_rank 1) 39 = false from by decide,
      show bb_at (bb_rank 6) 39 = false from by decide]
    simp

/-- C5 (amended): for every accepted FEN whose full-move number is between 1
and 32767, `to_fen` reproduces the placement, side-to-move, en-passant,
half-move-clock and full-move-number fields equivalently, and the emitted
castling-rights field only shrinks (each character is `-` or one of the
input's characters). -/
theorem c5_round_trip_fields (s : List Char) (p : Position)
    (f1 f2 f3 f4 f5 f6 : List Char) (mn : Nat)
    (hsplit : split_on ' ' s = [f1, f2, f3, f4, f5, f6])
    (hparse : from_fen s = some p)
    (hmn : parse_u 65535 f6 = some mn)
    (hlo : 1 ≤ mn) (hhi : mn ≤ 32767) :
    split_on ' ' (to_fen p)
      = [board_to_fen p.board, [color_to_fen (side_to_move p)], castle_field p,
         ep_field p, nat_digits p.half_move_clock, nat_digits mn]
    ∧ board_from_fen (board_to_fen p.board) = some p.board
    ∧ board_from_fen f1 = some p.board
    ∧ [color_to_fen (side_to_move p)] = f2
    ∧ (∀ c ∈ castle_field p, c = '-' ∨ c ∈ f3)
    ∧ ep_field p = f4
    ∧ parse_u 255 (nat_digits p.half_move_clock) = parse_u 255 f5
    ∧ parse_u 65535 (nat_digits mn) = some mn := by
  rw [from_fen] at hparse
  simp only [hsplit] at hparse
  cases hb : board_from_fen f1 with
  | none => rw [hb] at hparse; exact absurd hparse (by simp)
  | some board =>
  simp only [hb, Option.some_bind] at hparse
  set u0 := (find_piece board ⟨Color.white, PieceType.pawn⟩ &&& bb_rank 1) |||
    (find_piece board ⟨Color.black, PieceType.pawn⟩ &&& bb_rank 6) with hu0
  cases hstmEq : (if f2 = ['w'] then some Color.white
      else if f2 = ['b'] then some Color.black else Option.none) with
  | none => rw [hstmEq] at hparse; exact absurd hparse (by simp)
  | some stm =>
  simp only [hstmEq, Option.some_bind] at hparse
  have hstm2 : (f2 = ['w'] ∧ stm = Color.white) ∨ (f2 = ['b'] ∧ stm = Color.black) := by
    by_cases hw : f2 = ['w']
    · rw [if_pos hw] at hstmEq
      exact Or.inl ⟨hw, (Option.some.inj hstmEq).symm⟩
    · rw [if_neg hw] at hstmEq
      by_cases hbl : f2 = ['b']
      · rw [if_pos hbl] at hstmEq
        exact Or.inr ⟨hbl, (Option.some.inj hstmEq).symm⟩
      · rw [if_neg hbl] at hstmEq
        exact absurd hstmEq (by simp)
  cases humEq : (if f3 = ['-'] then some u0 else castle_fold board f3 u0) with
  | none => rw [humEq] at hparse; exact absurd hparse (by simp)
  | some unmoved =>
  simp only [humEq, Option.some_bind] at hparse
  cases hepEq : (if f4 = ['-'] then some (Option.none : Option Nat)
      else (square_parse f4).map some) with
  | none => rw [hepEq] at hparse; exact absurd hparse (by simp)
  | some ep =>
  simp only [hepEq, Option.some_bind] at hparse
  cases hhmcEq : parse_u 255 f5 with
  | none => rw [hhmcEq] at hparse; exact absurd hparse (by simp)
  | some hmc =>
  simp only [hhmcEq, Option.some_bind] at hparse
  simp only [hmn, Option.some_bind] at hparse
  have hpeq : p =
      { board := board, unmoved := unmoved, en_passant_target := ep,
        ply_number := (2 * mn + stm.ordinal + 65535) % 65536,
        half_move_clock := hmc } := (Option.some.inj hparse).symm
  have hpb : p.board = board := by rw [hpeq]
  have hpu : p.unmoved = unmoved := by rw [hpeq]
  have hpe : p.en_passant_target = ep := by rw [hpeq]
  have hpp : p.ply_number = (2 * mn + stm.ordinal + 65535) % 65536 := by rw [hpeq]
  have hph : p.half_move_clock = hmc := by rw [hpeq]
  have hstm_emit : side_to_move p = stm := by
    rw [side_to_move, hpp]
    rcases hstm2 with ⟨_, rfl⟩ | ⟨_, rfl⟩
    · rw [show ((2 * mn + Color.white.ordinal + 65535) % 65536 + 1) % 2 = 0 from by
        simp only [Color.ordinal]; omega]
      rfl
    · rw [show ((2 * mn + Color.black.ordinal + 65535) % 65536 + 1) % 2 = 1 from by
        simp only [Color.ordinal]; omega]
      rfl
  have hmn_emit : move_number_of p = mn := by
    rw [move_number_of, hpp]
    rcases hstm2 with ⟨_, rfl⟩ | ⟨_, rfl⟩ <;> simp only [Color.ordinal] <;> omega
  have hhmc_le : hmc ≤ 255 := parse_u_le 255 f5 hmc hhmcEq
  have hgood : BoardGood board := board_from_fen_good f1 board hb
  have hb2 : board_from_fen (board_to_fen p.board) = some p.board := by
    rw [hpb, board_from_to_fen board, reassemble_eq board hgood]
  have hstm_f2 : [color_to_fen (side_to_move p)] = f2 := by
    rw [hstm_emit]
    rcases hstm2 with ⟨hf2, rfl⟩ | ⟨hf2, rfl⟩
    · rw [hf2]; rfl
    · rw [hf2]; rfl
  have hcastle : ∀ c ∈ castle_field p, c = '-' ∨ c ∈ f3 := by
    by_cases hdash : f3 = ['-']
    · rw [if_pos hdash] at humEq
      obtain rfl := Option.some.inj humEq
      intro c hc
      have h32 : bb_at p.unmoved (square_at 4 0) = false := by
        rw [hpu, hu0]
        exact unmoved0_no_castle_bits _ _ (square_at 4 0) (by decide)
      have h39 : bb_at p.unmoved (square_at 4 7) = false := by
        rw [hpu, hu0]
        exact unmoved0_no_castle_bits _ _ (square_at 4 7) (by decide)
      rw [castle_field_dash p h32 h39] at hc
      simp only [List.mem_singleton] at hc
      exact Or.inl hc
    · rw [if_neg hdash] at humEq
      intro c hc
      have hbits := castle_field_flags p
      rcases castle_field_chars p c hc with rfl | rfl | rfl | rfl | rfl
      · exact Or.inl rfl
      · refine Or.inr ?_
        obtain ⟨-, hh1⟩ := hbits.1 hc
        rw [hpu] at hh1
        rcases castle_fold_bits board f3 u0 unmoved humEq (square_at 7 0) hh1 with
          h0 | ⟨c2, hc2, ci, hci, hor⟩
        · rw [hu0, unmoved0_no_castle_bits _ _ (square_at 7 0) (by decide)] at h0
          exact absurd h0 (by simp)
        · rcases castle_char_info_inv c2 ci hci with
            ⟨rfl, rfl⟩ | ⟨rfl, rfl⟩ | ⟨rfl, rfl⟩ | ⟨rfl, rfl⟩
          · exact hc2
          · rcases hor with h | h <;> exact absurd h (by decide)
          · rcases hor with h | h <;> exact absurd h (by decide)
          · rcases hor with h | h <;> exact absurd h (by decide)
      · refine Or.inr ?_
        obtain ⟨-, hh1⟩ := hbits.2.1 hc
        rw [hpu] at hh1
        rcases castle_fold_bits board f3 u0 unmoved humEq (square_at 0 0) hh1 with
          h0 | ⟨c2, hc2, ci, hci, hor⟩
        · rw [hu0, unmoved0_no_castle_bits _ _ (square_at 0 0) (by decide)] at h0
          exact absurd h0 (by simp)
        · rcases castle_char_info_inv c2 ci hci with
            ⟨rfl, rfl⟩ | ⟨rfl, rfl⟩ | ⟨rfl, rfl⟩ | ⟨rfl, rfl⟩
          · rcases hor with h | h <;> exact absurd h (by decide)
          · exact hc2
          · rcases hor with h | h <;> exact absurd h (by decide)
          · rcases hor with h | h <;> exact absurd h (by decide)
      · refine Or.inr ?_
        obtain ⟨-, hh1⟩ := hbits.2.2.1 hc
        rw [hpu] at hh1
        rcases castle_fold_bits board f3 u0 unmoved humEq (square_at 7 7) hh1 with
          h0 | ⟨c2, hc2, ci, hci, hor⟩
        · rw [hu0, unmoved0_no_castle_bits _ _ (square_at 7 7) (by decide)] at h0
          exact absurd h0 (by simp)
        · rcases castle_char_info_inv c2 ci hci with
            ⟨rfl, rfl⟩ | ⟨rfl, rfl⟩ | ⟨rfl, rfl⟩ | ⟨rfl, rfl⟩
          · rcases hor with h | h <;> exact absurd h (by decide)
          · rcases hor with h | h <;> exact absurd h (by decide)
          · exact hc2
          · rcases hor with h | h <;> exact absurd h (by decide)
      · refine Or.inr ?_
        obtain ⟨-, hh1⟩ := hbits.2.2.2 hc
        rw [hpu] at hh1
        rcases castle_fold_bits board f3 u0 unmoved humEq (square_at 0 7) hh1 with
          h0 | ⟨c2, hc2, ci, hci, hor⟩
        · rw [hu0, unmoved0_no_castle_bits _ _ (square_at 0 7) (by decide)] at h0
          exact absurd h0 (by simp)
        · rcases castle_char_info_inv c2 ci hci with
            ⟨rfl, rfl⟩ | ⟨rfl, rfl⟩ | ⟨rfl, rfl⟩ | ⟨rfl, rfl⟩
          · rcases hor with h | h <;> exact absurd h (by decide)
          · rcases hor with h | h <;> exact absurd h (by decide)
          · rcases hor with h | h <;> exact absurd h (by decide)
          · exact hc2
  have hep_main : ep_field p = f4 ∧ (∀ c ∈ ep_field p, c ≠ ' ') := by
    by_cases hd : f4 = ['-']
    · rw [if_pos hd] at hepEq
      obtain rfl := Option.some.inj hepEq
      have hform : ep_field p = ['-'] := by rw [ep_field, hpe]
      constructor
      · rw [hform, hd]
      · intro c hc
        rw [hform] at hc
        simp only [List.mem_singleton] at hc
        subst hc
        decide
    · rw [if_neg hd] at hepEq
      cases hsq : square_parse f4 with
      | none => rw [hsq] at hepEq; exact absurd hepEq (by simp)
      | some squ =>
        rw [hsq, Option.map_some'] at hepEq
        obtain rfl := Option.some.inj hepEq
        obtain ⟨a, bch, f, r, hf4, hfa, hrb, hsquv⟩ := square_parse_inv f4 squ hsq
        obtain ⟨hfv, hfa1, hfa2⟩ := parse_file_char_inv a f hfa
        obtain ⟨hrv, hrb1, hrb2⟩ := parse_rank_char_inv bch r hrb
        have hr8 : r < 8 := by omega
        have hform : ep_field p = [Char.ofNat (97 + f), Char.ofNat (49 + r)] := by
          have h1 : ep_field p = [Char.ofNat (97 + sq_file squ),
              Char.ofNat (49 + sq_rank squ)] := by
            rw [ep_field, hpe]
          rw [h1, hsquv, sq_file_square_at f r hr8, sq_rank_square_at f r hr8]
        constructor
        · rw [hform, hf4, hfv, hrv,
            show 97 + (a.toNat - 97) = a.toNat from by omega,
            show 49 + (bch.toNat - 49) = bch.toNat from by omega,
            Char.ofNat_toNat, Char.ofNat_toNat]
        · intro c hc
          rw [hform] at hc
          have hf7 : f ≤ 7 := by omega
          have hr7 : r ≤ 7 := by omega
          rcases List.mem_cons.mp hc with rfl | hc
          · interval_cases f <;> decide
          · rcases List.mem_cons.mp hc with rfl | hc
            · interval_cases r <;> decide
            · exact absurd hc (List.not_mem_nil c)
  have hsplit_out : split_on ' ' (to_fen p)
      = [board_to_fen p.board, [color_to_fen (side_to_move p)], castle_field p,
         ep_field p, nat_digits p.half_move_clock, nat_digits mn] := by
    have hshape : to_fen p
        = board_to_fen p.board ++ ' ' :: ([color_to_fen (side_to_move p)] ++
          ' ' :: (castle_field p ++ ' ' :: (ep_field p ++
          ' ' :: (nat_digits p.half_move_clock ++
          ' ' :: nat_digits (move_number_of p))))) := by
      rw [to_fen]
      simp [List.append_assoc]
    rw [hshape, hmn_emit]
    have hn1 : (' ' : Char) ∉ board_to_fen p.board := fun h =>
      board_to_fen_no_space p.board ' ' h rfl
    have hn2 : (' ' : Char) ∉ [color_to_fen (side_to_move p)] := by
      have hall : ∀ c : Color, (' ' : Char) ∉ [color_to_fen c] := by
        intro c; cases c <;> decide
      exact hall _
    have hn3 : (' ' : Char) ∉ castle_field p := by
      intro h
      rcases castle_field_chars p ' ' h with h | h | h | h | h <;>
        exact absurd h (by decide)
    have hn4 : (' ' : Char) ∉ ep_field p := fun h => hep_main.2 ' ' h rfl
    have hn5 : (' ' : Char) ∉ nat_digits p.half_move_clock := fun h =>
      digit_ne_space (nat_digits_digits p.half_move_clock ' ' h).1 rfl
    have hn6 : (' ' : Char) ∉ nat_digits mn := fun h =>
      digit_ne_space (nat_digits_digits mn ' ' h).1 rfl
    rw [split_on_append ' ' _ _ hn1, split_on_append ' ' _ _ hn2,
      split_on_append ' ' _ _ hn3, split_on_append ' ' _ _ hn4,
      split_on_append ' ' _ _ hn5, split_on_no_sep ' ' _ hn6]
  refine ⟨hsplit_out, hb2, by rw [hpb], hstm_f2, hcastle, hep_main.1, ?_,
    parse_u_nat_digits 65535 mn (by omega)⟩
  rw [hph]
  exact parse_u_nat_digits 255 hmc hhmc_le

/-- Witness: the initial-position FEN round-trips through the amended C5
statement. -/
theorem c5_round_trip_fields_witness :
    split_on ' ' (to_fen pos_initial)
      = [board_to_fen pos_initial.board, [color_to_fen (side_to_move pos_initial)],
         castle_field pos_initial, ep_field pos_initial,
         nat_digits pos_initial.half_move_clock, nat_digits 1]
    ∧ board_from_fen (board_to_fen pos_initial.board) = some pos_initial.board
    ∧ board_from_fen "rnbqkbnr/pppppppp/8/8/8/8/PPPPPPPP/RNBQKBNR".toList
        = some pos_initial.board
    ∧ [color_to_fen (side_to_move pos_initial)] = "w".toList
    ∧ (∀ c ∈ castle_field pos_initial, c = '-' ∨ c ∈ "KQkq".toList)
    ∧ ep_field pos_initial = "-".toList
    ∧ parse_u 255 (nat_digits pos_initial.half_move_clock) = parse_u 255 "0".toList
    ∧ parse_u 65535 (nat_digits 1) = some 1 :=
  c5_round_trip_fields FEN_INITIAL pos_initial
    "rnbqkbnr/pppppppp/8/8/8/8/PPPPPPPP/RNBQKBNR".toList "w".toList "KQkq".toList
    "-".toList "0".toList "1".toList 1
    (by decide) (by decide) (by decide) (by decide) (by decide)

/-! ## Claim C10 -/

theorem negamax_loop_bounds (f : Move → Int → Int) (maxv : Int) :
    ∀ (l : List Move) (cm : Int), cm ≤ maxv →
      cm ≤ negamax_loop f maxv l cm ∧ negamax_loop f maxv l cm ≤ maxv := by
  intro l
  induction l with
  | nil => intro cm h; exact ⟨le_rfl, h⟩
  | cons mov rest ih =>
    intro cm h
    simp only [negamax_loop]
    by_cases hs : f mov cm > cm
    · rw [if_pos hs]
      by_cases hm : f mov cm ≥ maxv
      · rw [if_pos hm]
        exact ⟨h, le_rfl⟩
      · rw [if_neg hm]
        have hrec := ih (f mov cm) (by omega)
        exact ⟨le_trans (by omega) hrec.1, hrec.2⟩
    · rw [if_neg hs]
      exact ih cm h

/-- At depth at least 1 a `negamax` call with the full window stays inside
the window (the empty-list sentinels lie inside it, and the loop clamps). -/
theorem negamax_bounds (pos : Position) (d : Nat) (hd : 1 ≤ d) :
    -32767 ≤ negamax pos d (-32767) 32767 ∧ negamax pos d (-32767) 32767 ≤ 32767 := by
  match d, hd with
  | e + 1, _ =>
    rw [negamax]
    by_cases hlen : (gen_pseudolegal pos).length = 0
    · rw [if_pos hlen]
      by_cases hchk : is_in_check pos (side_to_move pos) = true
      · rw [if_pos hchk]; omega
      · rw [if_neg hchk]; omega
    · rw [if_neg hlen]
      exact negamax_loop_bounds _ 32767 _ (-32767) (by omega)

theorem best_fold_mem (g : Move → Int) :
    ∀ (l : List Move) (a : Int) (o : Option Move),
      (l.foldl (fun acc mov => if g mov > acc.1 then (g mov, some mov) else acc) (a, o)).2 = o
      ∨ ∃ m, m ∈ l ∧
        (l.foldl (fun acc mov => if g mov > acc.1 then (g mov, some mov) else acc) (a, o)).2
          = some m := by
  intro l
  induction l with
  | nil => intro a o; exact Or.inl rfl
  | cons mov rest ih =>
    intro a o
    rw [List.foldl_cons]
    by_cases hs : g mov > (a, o).1
    · rw [if_pos hs]
      rcases ih (g mov) (some mov) with heq | ⟨m, hm, heq⟩
      · exact Or.inr ⟨mov, List.mem_cons_self mov rest, heq⟩
      · exact Or.inr ⟨m, List.mem_cons_of_mem mov hm, heq⟩
    · rw [if_neg hs]
      rcases ih a o with heq | ⟨m, hm, heq⟩
      · exact Or.inl heq
      · exact Or.inr ⟨m, List.mem_cons_of_mem mov hm, heq⟩

/-- C10: for every position, every non-empty list of legal moves, and every
configured depth at least 1, `pick_move` returns a move from the supplied
list (the `unwrap` branch is unreachable): the first move's score strictly
exceeds the initial sentinel -32768 because recursive calls stay within the
alpha-beta window; at depth 1 the score of the first move is the negated
static evaluation, whose i16 upper bound 32767 is the one side condition. -/
theorem c10_pick_move_membership (pos : Position) (legal_moves : List Move) (depth : Nat)
    (h1 : legal_moves ≠ []) (h2 : 1 ≤ depth)
    (h3 : depth = 1 →
      negamax (apply_move pos (legal_moves.head h1)) 0 (-32767) 32767 ≤ 32767) :
    ∃ mov, pick_move pos legal_moves depth = some mov ∧ mov ∈ legal_moves := by
  match legal_moves, h1, h3 with
  | hd :: tl, _, h3 =>
    have hscore : -32768 <
        -(negamax (apply_move pos hd) (depth - 1) (-32767) 32767) := by
      rcases Nat.lt_or_ge depth 2 with hlt | hge
      · have hdepth1 : depth = 1 := by omega
        have hb := h3 hdepth1
        rw [List.head_cons] at hb
        have hgoal : depth - 1 = 0 := by omega
        rw [hgoal]
        omega
      · have hb := negamax_bounds (apply_move pos hd) (depth - 1) (by omega)
        omega
    have hunfold : pick_move pos (hd :: tl) depth
        = (tl.foldl (fun acc mov =>
            if -(negamax (apply_move pos mov) (depth - 1) (-32767) 32767) > acc.1 then
              (-(negamax (apply_move pos mov) (depth - 1) (-32767) 32767), some mov)
            else acc)
            (-(negamax (apply_move pos hd) (depth - 1) (-32767) 32767), some hd)).2 := by
      show (List.foldl (fun acc mov =>
          if -(negamax (apply_move pos mov) (depth - 1) (-32767) 32767) > acc.1 then
            (-(negamax (apply_move pos mov) (depth - 1) (-32767) 32767), some mov)
          else acc) ((-32768 : Int), (Option.none : Option Move)) (hd :: tl)).2 = _
      rw [List.foldl_cons, if_pos (by exact hscore)]
    rw [hunfold]
    rcases best_fold_mem (fun mov => -(negamax (apply_move pos mov) (depth - 1) (-32767) 32767))
        tl (-(negamax (apply_move pos hd) (depth - 1) (-32767) 32767)) (some hd) with
      heq | ⟨m, hm, heq⟩
    · exact ⟨hd, heq, List.mem_cons_self hd tl⟩
    · exact ⟨m, heq, List.mem_cons_of_mem hd hm⟩

/-- C10 witness: in the king-versus-king position the legal list is
non-empty and depth-1 `pick_move` returns one of its members. -/
theorem c10_pick_move_membership_witness :
    ∃ mov, pick_move pos_kings (gen_legal pos_kings) 1 = some mov
      ∧ mov ∈ gen_legal pos_kings := by
  refine c10_pick_move_membership pos_kings (gen_legal pos_kings) 1 (by decide) (by decide) ?_
  intro _
  decide

/-! ## Claim C7 -/

theorem bb_at_clear_of_ne (x t f : Nat) (hf : f < 64) (hne : t ≠ f) :
    bb_at (x &&& bb_not (bb_one t)) f = bb_at x f := by
  rw [bb_at_land, bb_at_not _ _ hf, bb_at_one]
  simp [hne]

/-- The `unmoved` component after the capture loop is unchanged at squares
other than the destination. -/
theorem capture_fold_unmoved (c : Color) (t : Nat) (l : List PieceType)
    (st : Board × Nat × Bool) (f : Nat) (hf : f < 64) (hne : t ≠ f) :
    bb_at ((l.foldl (capture_step c t) st).2.1) f = bb_at st.2.1 f := by
  induction l generalizing st with
  | nil => rfl
  | cons pt rest ih =>
    simp only [List.foldl_cons]
    rw [ih]
    cases hb : bb_at (find_piece st.1 ⟨c, pt⟩) t <;> simp only [capture_step, hb]
    · simp
    · simp only [if_true]
      exact bb_at_clear_of_ne st.2.1 t f hf hne

/-- C7: for a move accepted by `apply_move` (the moved piece is on its source
square, castling tags sit on king moves) in a position whose unmoved own
pawns all sit on the mover's home pawn rank, the resulting en-passant target
is `some` of the skipped square exactly when the move is a pawn move two
ranks straight forward (relative to the mover) from an `unmoved` square;
after every other move it is `none`. -/
theorem c7_en_passant_target (pos : Position) (mov : Move) (s : Nat)
    (hf64 : mov.from_squ < 64)
    (hassert : bb_at (find_piece pos.board ⟨side_to_move pos, mov.ptype⟩) mov.from_squ = true)
    (hcastle : mov.special = .castle_q ∨ mov.special = .castle_k → mov.ptype = .king)
    (hhome : ∀ t, bb_at (find_piece pos.board ⟨side_to_move pos, .pawn⟩) t = true →
      bb_at pos.unmoved t = true → sq_rank t = (side_to_move pos).rel_rank 1) :
    (apply_move pos mov).en_passant_target = some s ↔
      (mov.ptype = .pawn ∧ bb_at pos.unmoved mov.from_squ = true
        ∧ sq_file mov.to_squ = sq_file mov.from_squ
        ∧ (sq_rank mov.to_squ : Int) = (sq_rank mov.from_squ : Int) + 2 * (side_to_move pos).up
        ∧ s = square_at (sq_file mov.from_squ)
            ((sq_rank mov.from_squ + sq_rank mov.to_squ) / 2)) := by
  have hup : (side_to_move pos).up = 1 ∨ (side_to_move pos).up = -1 := by
    cases side_to_move pos <;> simp [Color.up]
  have key : ∀ u1 : Nat,
      (mov.to_squ ≠ mov.from_squ → bb_at u1 mov.from_squ = bb_at pos.unmoved mov.from_squ) →
      ((if mov.ptype = .pawn ∧ bb_at u1 mov.from_squ = true
          ∧ sq_file mov.from_squ = sq_file mov.to_squ
          ∧ ((sq_rank mov.to_squ : Int) - (sq_rank mov.from_squ : Int)).natAbs = 2 then
        some (square_at (sq_file mov.from_squ)
          ((sq_rank mov.from_squ + sq_rank mov.to_squ) / 2))
      else Option.none) = some s ↔
      (mov.ptype = .pawn ∧ bb_at pos.unmoved mov.from_squ = true
        ∧ sq_file mov.to_squ = sq_file mov.from_squ
        ∧ (sq_rank mov.to_squ : Int) = (sq_rank mov.from_squ : Int) + 2 * (side_to_move pos).up
        ∧ s = square_at (sq_file mov.from_squ)
            ((sq_rank mov.from_squ + sq_rank mov.to_squ) / 2))) := by
    intro u1 hu
    by_cases hft : mov.to_squ = mov.from_squ
    · have hcnot : ¬ (mov.ptype = .pawn ∧ bb_at u1 mov.from_squ = true
          ∧ sq_file mov.from_squ = sq_file mov.to_squ
          ∧ ((sq_rank mov.to_squ : Int) - (sq_rank mov.from_squ : Int)).natAbs = 2) := by
        rintro ⟨_, _, _, habs⟩
        rw [hft] at habs
        simp at habs
      rw [if_neg hcnot]
      constructor
      · intro habs
        exact Option.noConfusion habs
      · rintro ⟨_, _, _, hfwd, _⟩
        rw [hft] at hfwd
        rcases hup with h1 | h1 <;> rw [h1] at hfwd <;> omega
    · specialize hu hft
      have hcond : (mov.ptype = .pawn ∧ bb_at u1 mov.from_squ = true
            ∧ sq_file mov.from_squ = sq_file mov.to_squ
            ∧ ((sq_rank mov.to_squ : Int) - (sq_rank mov.from_squ : Int)).natAbs = 2) ↔
          (mov.ptype = .pawn ∧ bb_at pos.unmoved mov.from_squ = true
            ∧ sq_file mov.to_squ = sq_file mov.from_squ
            ∧ (sq_rank mov.to_squ : Int)
                = (sq_rank mov.from_squ : Int) + 2 * (side_to_move pos).up) := by
        constructor
        · rintro ⟨hp, hu1, hfile, habs⟩
          rw [hu] at hu1
          have hpawn : bb_at (find_piece pos.board ⟨side_to_move pos, .pawn⟩) mov.from_squ
              = true := by rw [← hp]; exact hassert
          have hrank := hhome mov.from_squ hpawn hu1
          refine ⟨hp, hu1, hfile.symm, ?_⟩
          have h8 : sq_rank mov.to_squ < 8 := sq_rank_lt mov.to_squ
          rcases Int.natAbs_eq_iff.mp habs with hd | hd <;>
            cases hc : side_to_move pos <;> rw [hc] at hrank <;>
              simp only [Color.rel_rank] at hrank <;> simp only [Color.up] <;> omega
        · rintro ⟨hp, hu1, hfile, hfwd⟩
          rw [← hu] at hu1
          refine ⟨hp, hu1, hfile.symm, ?_⟩
          rcases hup with h1 | h1 <;> rw [h1] at hfwd <;> omega
      by_cases hc : mov.ptype = .pawn ∧ bb_at u1 mov.from_squ = true
          ∧ sq_file mov.from_squ = sq_file mov.to_squ
          ∧ ((sq_rank mov.to_squ : Int) - (sq_rank mov.from_squ : Int)).natAbs = 2
      · rw [if_pos hc]
        have hcl := hcond.mp hc
        simp only [Option.some_inj]
        constructor
        · intro hmid
          exact ⟨hcl.1, hcl.2.1, hcl.2.2.1, hcl.2.2.2, hmid.symm⟩
        · intro hr
          exact hr.2.2.2.2.symm
      · rw [if_neg hc]
        constructor
        · intro habs
          exact Option.noConfusion habs
        · rintro ⟨hp, hu1, hfile, hfwd, _⟩
          exact absurd (hcond.mpr ⟨hp, hu1, hfile, hfwd⟩) hc
  cases hs : mov.special with
  | castle_q =>
    have hk : mov.ptype = .king := hcastle (Or.inl hs)
    simp [apply_move, hs, hk]
  | castle_k =>
    have hk : mov.ptype = .king := hcastle (Or.inr hs)
    simp [apply_move, hs, hk]
  | en_passant =>
    have := key (pos.unmoved &&& bb_not (bb_one mov.to_squ))
      (fun hft => bb_at_clear_of_ne pos.unmoved mov.to_squ mov.from_squ hf64 hft)
    simpa [apply_move, hs] using this
  | none =>
    have := key ((PieceType.all.foldl (capture_step (side_to_move pos).opponent mov.to_squ)
        (pos.board, pos.unmoved, false)).2.1)
      (fun hft => capture_fold_unmoved (side_to_move pos).opponent mov.to_squ PieceType.all
        (pos.board, pos.unmoved, false) mov.from_squ hf64 hft)
    simpa [apply_move, hs] using this
  | promote_n =>
    have := key ((PieceType.all.foldl (capture_step (side_to_move pos).opponent mov.to_squ)
        (pos.board, pos.unmoved, false)).2.1)
      (fun hft => capture_fold_unmoved (side_to_move pos).opponent mov.to_squ PieceType.all
        (pos.board, pos.unmoved, false) mov.from_squ hf64 hft)
    simpa [apply_move, hs] using this
  | promote_b =>
    have := key ((PieceType.all.foldl (capture_step (side_to_move pos).opponent mov.to_squ)
        (pos.board, pos.unmoved, false)).2.1)
      (fun hft => capture_fold_unmoved (side_to_move pos).opponent mov.to_squ PieceType.all
        (pos.board, pos.unmoved, false) mov.from_squ hf64 hft)
    simpa [apply_move, hs] using this
  | promote_r =>
    have := key ((PieceType.all.foldl (capture_step (side_to_move pos).opponent mov.to_squ)
        (pos.board, pos.unmoved, false)).2.1)
      (fun hft => capture_fold_unmoved (side_to_move pos).opponent mov.to_squ PieceType.all
        (pos.board, pos.unmoved, false) mov.from_squ hf64 hft)
    simpa [apply_move, hs] using this
  | promote_q =>
    have := key ((PieceType.all.foldl (capture_step (side_to_move pos).opponent mov.to_squ)
        (pos.board, pos.unmoved, false)).2.1)
      (fun hft => capture_fold_unmoved (side_to_move pos).opponent mov.to_squ PieceType.all
        (pos.board, pos.unmoved, false) mov.from_squ hf64 hft)
    simpa [apply_move, hs] using this

/-- Turn a finite scan over the 64 squares into a universally quantified
home-rank invariant (bits at or above 64 are absent since the bitboard is a
`u64` value). -/
theorem home_rank_invariant_of (P U r : Nat) (hP : P < 2 ^ 64)
    (h : (List.range 64).all (fun t => !(bb_at P t && bb_at U t) || (sq_rank t == r)) = true) :
    ∀ t, bb_at P t = true → bb_at U t = true → sq_rank t = r := by
  intro t hp hu
  by_cases ht : t < 64
  · have hmem := List.all_eq_true.mp h t (List.mem_range.mpr ht)
    simp only [hp, hu, Bool.and_self, Bool.not_true, Bool.false_or] at hmem
    simpa using hmem
  · exfalso
    have hz : P.testBit t = false := Nat.testBit_lt_two_pow
      (lt_of_lt_of_le hP (Nat.pow_le_pow_right (by norm_num) (le_of_not_lt ht)))
    rw [bb_at, hz] at hp
    exact Bool.noConfusion hp

/-- C7 witness: in the initial position, the double push e2e4 is a pawn move
two ranks straight forward from an unmoved square and sets the en-passant
target to the skipped square e3. -/
theorem c7_en_passant_target_witness :
    (apply_move pos_initial ⟨.pawn, square_at 4 1, square_at 4 3, .none⟩).en_passant_target
      = some (square_at 4 2) := by
  refine (c7_en_passant_target pos_initial ⟨.pawn, square_at 4 1, square_at 4 3, .none⟩
    (square_at 4 2) (by decide) (by decide) (by decide)
    (home_rank_invariant_of _ _ _ (by decide) (by decide))).mpr ?_
  refine ⟨rfl, by decide, by decide, by decide, by decide⟩

/-! ## Claim C8 -/

theorem first_bit_from_some (x : Nat) : ∀ (fuel i j : Nat),
    first_bit_from x fuel i = some j →
    i ≤ j ∧ j < i + fuel ∧ x.testBit j = true
      ∧ ∀ k, i ≤ k → k < j → x.testBit k = false := by
  intro fuel
  induction fuel with
  | zero => intro i j h; exact Option.noConfusion h
  | succ fuel ih =>
    intro i j h
    rw [first_bit_from] at h
    cases hxb : x.testBit i
    · rw [hxb] at h
      simp only [Bool.false_eq_true, if_false] at h
      obtain ⟨h1, h2, h3, h4⟩ := ih (i + 1) j h
      refine ⟨by omega, by omega, h3, ?_⟩
      intro k hk1 hk2
      rcases Nat.eq_or_lt_of_le hk1 with heq | hlt
      · rw [← heq]; exact hxb
      · exact h4 k hlt hk2
    · rw [hxb] at h
      simp only [if_true] at h
      obtain rfl : i = j := Option.some_inj.mp h
      exact ⟨le_rfl, by omega, hxb, fun k hk1 hk2 => absurd hk1 (by omega)⟩

theorem first_bit_from_none (x : Nat) : ∀ (fuel i : Nat),
    first_bit_from x fuel i = Option.none →
    ∀ j, i ≤ j → j < i + fuel → x.testBit j = false := by
  intro fuel
  induction fuel with
  | zero => intro i _ j h1 h2; omega
  | succ fuel ih =>
    intro i h j h1 h2
    rw [first_bit_from] at h
    cases hxb : x.testBit i
    · rw [hxb] at h
      simp only [Bool.false_eq_true, if_false] at h
      rcases Nat.eq_or_lt_of_le h1 with heq | hlt
      · rw [← heq]; exact hxb
      · exact ih (i + 1) h j hlt (by omega)
    · rw [hxb] at h
      simp only [if_true] at h
      exact Option.noConfusion h

theorem last_bit_below_some (x : Nat) : ∀ (n j : Nat), last_bit_below x n = some j →
    j < n ∧ x.testBit j = true ∧ ∀ k, j < k → k < n → x.testBit k = false := by
  intro n
  induction n with
  | zero => intro j h; exact Option.noConfusion h
  | succ n ih =>
    intro j h
    rw [last_bit_below] at h
    cases hxb : x.testBit n
    · rw [hxb] at h
      simp only [Bool.false_eq_true, if_false] at h
      obtain ⟨h1, h2, h3⟩ := ih j h
      refine ⟨by omega, h2, ?_⟩
      intro k hk1 hk2
      rcases Nat.lt_succ_iff_lt_or_eq.mp hk2 with hlt | heq
      · exact h3 k hk1 hlt
      · rw [heq]; exact hxb
    · rw [hxb] at h
      simp only [if_true] at h
      obtain rfl : n = j := Option.some_inj.mp h
      exact ⟨by omega, hxb, fun k hk1 hk2 => by omega⟩

theorem last_bit_below_none (x : Nat) : ∀ n, last_bit_below x n = Option.none →
    ∀ j, j < n → x.testBit j = false := by
  intro n
  induction n with
  | zero => intro _ j h; omega
  | succ n ih =>
    intro h j hj
    rw [last_bit_below] at h
    cases hxb : x.testBit n
    · rw [hxb] at h
      simp only [Bool.false_eq_true, if_false] at h
      rcases Nat.lt_succ_iff_lt_or_eq.mp hj with hlt | heq
      · exact ih h j hlt
      · rw [heq]; exact hxb
    · rw [hxb] at h
      simp only [if_true] at h
      exact Option.noConfusion h

theorem ones_shiftRight (k : Nat) : U64MASK >>> k = 2 ^ (64 - k) - 1 := by
  apply Nat.eq_of_testBit_eq
  intro j
  rw [Nat.testBit_shiftRight, U64MASK_eq, Nat.testBit_two_pow_sub_one,
    Nat.testBit_two_pow_sub_one]
  exact decide_eq_decide.mpr (by omega)

theorem testBit_span (lo len j : Nat) :
    ((2 ^ len - 1) <<< lo).testBit j = decide (lo ≤ j ∧ j < lo + len) := by
  rw [Nat.testBit_shiftLeft, Nat.testBit_two_pow_sub_one]
  by_cases hlo : lo ≤ j
  · have : (decide (lo ≤ j)) = true := decide_eq_true hlo
    rw [this, Bool.true_and]
    exact decide_eq_decide.mpr (by omega)
  · have : (decide (lo ≤ j)) = false := decide_eq_false hlo
    rw [this, Bool.false_and]
    exact (decide_eq_false (by omega)).symm

/-- C8: for every origin square, line template through the origin and
occupancy, `cast_ray` holds exactly the template squares in the inclusive
span from the nearest obstacle strictly below the origin to the nearest
obstacle strictly above it, each endpoint defaulting to the template's own
boundary square when no obstacle exists on that side. -/
theorem c8_cast_ray_span (from_squ pattern pieces : Nat)
    (hf : from_squ < 64) (hpat : pattern < 2 ^ 64)
    (horig : bb_at pattern from_squ = true) :
    ∀ s, bb_at (cast_ray from_squ pattern pieces) s = true ↔
      (bb_at pattern s = true
        ∧ ray_lo from_squ pattern pieces ≤ s ∧ s ≤ ray_hi from_squ pattern pieces) := by
  intro s
  have hpat_bit : ∀ j, pattern.testBit j = true → j < 64 := by
    intro j hj
    by_contra hge
    have hlt : pattern < 2 ^ j :=
      lt_of_lt_of_le hpat (Nat.pow_le_pow_right (by norm_num) (by omega))
    rw [Nat.testBit_lt_two_pow hlt] at hj
    exact Bool.noConfusion hj
  set o := pattern &&& pieces &&& bb_not (bb_one from_squ) with ho
  have hbefore_mask : ∀ j, (U64MASK >>> (63 - from_squ)).testBit j = decide (j ≤ from_squ) := by
    intro j
    rw [ones_shiftRight]
    have h63 : 64 - (63 - from_squ) = from_squ + 1 := by omega
    rw [h63, Nat.testBit_two_pow_sub_one]
    exact decide_eq_decide.mpr (by omega)
  have hafter_mask : ∀ j, ((U64MASK <<< from_squ) &&& U64MASK).testBit j
      = decide (from_squ ≤ j ∧ j < 64) := by
    intro j
    rw [Nat.testBit_and, Nat.testBit_shiftLeft, U64MASK_eq, Nat.testBit_two_pow_sub_one,
      Nat.testBit_two_pow_sub_one]
    by_cases h1 : from_squ ≤ j
    · by_cases h2 : j < 64
      · simp [h1, h2, (by omega : j - from_squ < 64)]
      · simp [h1, h2]
    · simp [h1]
  have hbefore : ∀ j, (o &&& (U64MASK >>> (63 - from_squ))).testBit j
      = (o.testBit j && decide (j ≤ from_squ)) := by
    intro j
    rw [Nat.testBit_and, hbefore_mask]
  have hafter : ∀ j, (o &&& ((U64MASK <<< from_squ) &&& U64MASK)).testBit j
      = (o.testBit j && decide (from_squ ≤ j ∧ j < 64)) := by
    intro j
    rw [Nat.testBit_and, hafter_mask]
  set o1 := (last_bit (o &&& (U64MASK >>> (63 - from_squ)))).getD 0 with ho1
  set o2 := (first_bit (o &&& ((U64MASK <<< from_squ) &&& U64MASK))).getD 63 with ho2
  have hlo_eq : ray_lo from_squ pattern pieces
      = (match last_bit (o &&& (U64MASK >>> (63 - from_squ))) with
         | some i => i
         | Option.none => (first_bit pattern).getD 0) := rfl
  have hhi_eq : ray_hi from_squ pattern pieces
      = (match first_bit (o &&& ((U64MASK <<< from_squ) &&& U64MASK)) with
         | some i => i
         | Option.none => (last_bit pattern).getD 63) := rfl
  have ho1_le : o1 ≤ from_squ := by
    rw [ho1]
    cases hlb : last_bit (o &&& (U64MASK >>> (63 - from_squ))) with
    | none => simp
    | some i =>
      obtain ⟨_, hbit, _⟩ := last_bit_below_some _ _ _ hlb
      rw [hbefore] at hbit
      simpa using (Bool.and_eq_true_iff.mp hbit).2
  have ho2_ge : from_squ ≤ o2 ∧ o2 ≤ 63 := by
    rw [ho2]
    cases hfb : first_bit (o &&& ((U64MASK <<< from_squ) &&& U64MASK)) with
    | none =>
      simp only [Option.getD_none]
      omega
    | some i =>
      obtain ⟨_, hi64, hbit, _⟩ := first_bit_from_some _ _ _ _ hfb
      rw [hafter] at hbit
      have h2 := of_decide_eq_true (Bool.and_eq_true_iff.mp hbit).2
      simp only [Option.getD_some]
      omega
  have ho12 : o1 ≤ o2 := le_trans ho1_le ho2_ge.1
  have hres : bb_at (cast_ray from_squ pattern pieces) s
      = (pattern.testBit s && decide (o1 ≤ s ∧ s ≤ o2)) := by
    rw [bb_at]
    show (pattern &&& ((U64MASK >>> (64 - (1 + o2 - o1))) <<< o1)).testBit s = _
    rw [Nat.testBit_and]
    congr 1
    have hones := ones_shiftRight (64 - (1 + o2 - o1))
    have heq : 64 - (64 - (1 + o2 - o1)) = 1 + o2 - o1 := by omega
    rw [heq] at hones
    rw [hones, testBit_span]
    exact decide_eq_decide.mpr (by omega)
  rw [hres, Bool.and_eq_true_iff]
  constructor
  · rintro ⟨hps, hspan⟩
    have hspan2 := of_decide_eq_true hspan
    have hs64 := hpat_bit s hps
    refine ⟨hps, ?_, ?_⟩
    · rw [hlo_eq]
      cases hlb : last_bit (o &&& (U64MASK >>> (63 - from_squ))) with
      | some i =>
        rw [ho1, hlb, Option.getD_some] at hspan2
        exact hspan2.1
      | none =>
        cases hfp : first_bit pattern with
        | none =>
          have h := first_bit_from_none pattern 64 0 hfp from_squ (by omega) (by omega)
          rw [bb_at, h] at horig
          exact Bool.noConfusion horig
        | some m =>
          obtain ⟨_, _, _, hmin⟩ := first_bit_from_some pattern 64 0 m hfp
          show m ≤ s
          by_contra hlt
          exact Bool.noConfusion ((hmin s (by omega) (by omega)).symm.trans hps)
    · rw [hhi_eq]
      cases hfb : first_bit (o &&& ((U64MASK <<< from_squ) &&& U64MASK)) with
      | some i =>
        rw [ho2, hfb, Option.getD_some] at hspan2
        exact hspan2.2
      | none =>
        cases hlp : last_bit pattern with
        | none =>
          have h := last_bit_below_none pattern 64 hlp from_squ (by omega)
          rw [bb_at, h] at horig
          exact Bool.noConfusion horig
        | some m =>
          obtain ⟨_, _, hmax⟩ := last_bit_below_some pattern 64 m hlp
          show s ≤ m
          by_contra hgt
          exact Bool.noConfusion ((hmax s (by omega) (by omega)).symm.trans hps)
  · rintro ⟨hps, hlo, hhi⟩
    refine ⟨hps, decide_eq_true ⟨?_, ?_⟩⟩
    · rw [ho1]
      cases hlb : last_bit (o &&& (U64MASK >>> (63 - from_squ))) with
      | none => simp
      | some i =>
        rw [Option.getD_some]
        rw [hlo_eq, hlb] at hlo
        exact hlo
    · rw [ho2]
      cases hfb : first_bit (o &&& ((U64MASK <<< from_squ) &&& U64MASK)) with
      | none =>
        simp only [Option.getD_none]
        have hs64 := hpat_bit s hps
        omega
      | some i =>
        rw [Option.getD_some]
        rw [hhi_eq, hfb] at hhi
        exact hhi

/-- C8 witness: a rook ray along rank 4 from e4 with obstacles on c4 and g4
is characterized by the proved span property; at the obstacle square g4
(index 51) the template membership and both span bounds hold. -/
theorem c8_cast_ray_span_witness :
    bb_at (cast_ray (square_at 4 3) (bb_rank 3) (bb_one (square_at 2 3) ||| bb_one (square_at 6 3)))
        (square_at 6 3) = true ↔
      (bb_at (bb_rank 3) (square_at 6 3) = true
        ∧ ray_lo (square_at 4 3) (bb_rank 3) (bb_one (square_at 2 3) ||| bb_one (square_at 6 3))
            ≤ square_at 6 3
        ∧ square_at 6 3
            ≤ ray_hi (square_at 4 3) (bb_rank 3) (bb_one (square_at 2 3) ||| bb_one (square_at 6 3))) :=
  c8_cast_ray_span (square_at 4 3) (bb_rank 3)
    (bb_one (square_at 2 3) ||| bb_one (square_at 6 3))
    (by decide) (by decide) (by decide) (square_at 6 3)


end Chess
